import Mathlib

/- Shallow embedding of src/seq2seq/training_utils.py: the per-batch
   training/evaluation step loss_batch (lines 47-126) and the epoch driver
   fit (lines 129-190).  Tensors are modelled over the real numbers: a
   feature vector is a List of reals, a time slice of a batch (code shape
   [1, B, F], with the leading broadcast dimension dropped) is a Slice, and
   a full batch tensor of shape [B, T, F] is a Seq3 (outer list = batch
   samples, inner list = time steps).  The encoder, decoder, autograd
   backward pass, optimizers and schedulers are the external collaborators
   of the design and enter as function parameters.  Python-level failures
   (sys.exit, tensor index errors, integer modulo by zero) are modelled
   with an explicit error type. -/

namespace VTNMP

abbrev Vec : Type := List ℝ

abbrev Slice : Type := List Vec

abbrev Seq3 : Type := List (List Vec)

/-- Runtime failures of the Python code: the fatal sys.exit of
training_utils.py line 76, a tensor index out of range, and Python integer
division/modulo by zero. -/
inductive Err : Type
  | configExit
  | indexError
  | zeroDivision
deriving DecidableEq

/-- Shape [T, F] of one batch sample: the list of per-step feature widths. -/
def shape2 (s : List Vec) : List ℕ := s.map List.length

/-- Shape of a [B, T, F] tensor, as the per-sample list of per-step widths. -/
def shape3 (x : Seq3) : List (List ℕ) := x.map shape2

/-- Time slice x[:, t, :]: fails like the Python tensor indexing when t is
out of range for some sample. -/
def tsliceE (x : Seq3) (t : ℕ) : Except Err Slice :=
  if x.all (fun row => decide (t < row.length)) then
    .ok (x.map (fun row => row.getD t []))
  else .error .indexError

/-- Assignment outputs[:, t, :] = s (line 98): sample b gets its step t
replaced by s b. -/
def writeSlice (x : Seq3) (t : ℕ) (s : Slice) : Seq3 :=
  x.zipWith (fun row v => row.set t v) s

/-- Total read of the time slice at t, defaulting missing steps to []. -/
def sliceAtD (x : Seq3) (t : ℕ) : Slice := x.map (fun row => row.getD t [])

/-- torch.ones_like on a slice (line 67). -/
def onesLike (s : Slice) : Slice := s.map (fun v => v.map fun _ => (1 : ℝ))

/-- torch.zeros_like on a slice (line 68). -/
def zerosLike (s : Slice) : Slice := s.map (fun v => v.map fun _ => (0 : ℝ))

/-- torch.zeros_like(target_batch) (line 69). -/
def zeros3 (x : Seq3) : Seq3 :=
  x.map (fun row => row.map (fun v => v.map fun _ => (0 : ℝ)))

/-- Contiguous row-major flattening of one sample or one slice. -/
def flatten2 (s : Slice) : List ℝ := s.flatten

/-- Contiguous flattening of a [B, T, F] tensor. -/
def flatten3 (x : Seq3) : List ℝ := (x.map flatten2).flatten

/-- Default eps of torch.nn.functional.normalize. -/
noncomputable def normEps : ℝ := 1 / 10 ^ 12

/-- Euclidean norm of a flat vector. -/
noncomputable def l2norm (v : List ℝ) : ℝ :=
  Real.sqrt ((v.map (fun x => x ^ 2)).sum)

/-- F.normalize(., p=2, dim=1) on one row: divide by the L2 norm clamped
below by eps. -/
noncomputable def normalizeChunk (v : List ℝ) : List ℝ :=
  v.map (fun x => x / max (l2norm v) normEps)

/-- view(-1, 4): split a flat tensor into consecutive groups of four (the
shape-compatibility check of the Python view is not modelled; every claim
that exercises this has a length divisible by four). -/
def toChunks4 : List ℝ → List (List ℝ)
  | [] => []
  | x :: xs => (x :: xs.take 3) :: toChunks4 (xs.drop 3)
termination_by l => l.length
decreasing_by simp; omega

/-- Lines 95-96: regroup the flattened step output by four and L2-normalize
each group. -/
noncomputable def normalizeQuat (xs : List ℝ) : List ℝ :=
  ((toChunks4 xs).map normalizeChunk).flatten

/-- Restore a flat list into the row structure of a template slice
(view(original_shape) at line 96). -/
def unflattenLike : Slice → List ℝ → Slice
  | [], _ => []
  | r :: rs, xs => xs.take r.length :: unflattenLike rs (xs.drop r.length)

/-- Lines 92-96 applied to one decoder step output. -/
noncomputable def normSlice (s : Slice) : Slice :=
  unflattenLike s (normalizeQuat (flatten2 s))

/-- Tensor.detach() (line 105): identical values; gradient tracking is
outside the value semantics embedded here. -/
def detach (s : Slice) : Slice := s

/-- Observable outcome of the decoder unrolling loop (lines 79-105): the
possibly failed final OutputSequence, the inputs fed to the decoder in
order (one entry per decoder invocation) and the post-normalization step
outputs written into the output sequence. -/
structure UnrollRes : Type where
  err : Option Err
  outputs : Seq3
  decInputs : List Slice
  stepOuts : List Slice

open Classical in
/-- Decoder unrolling loop, lines 79-105.  One recursive call per remaining
timestep index; useTF is the Bernoulli draw of line 71 and EOS the all-zero
sentinel of line 68.  Each iteration invokes the decoder, reads the target
slice (line 88, the Python IndexError point when the input sequence is
longer than the target), optionally re-normalizes quaternions, writes the
output at position t, and then teacher-forces, stops at the EOS sentinel,
or self-feeds the detached output. -/
noncomputable def unroll {H E : Type} (dec : Slice → H → Option E → Slice × H)
    (encOuts : Option E) (useTF normQ : Bool) (target_batch : Seq3)
    (EOS : Slice) :
    List ℕ → Slice → H → Seq3 → UnrollRes
  | [], _, _, outputs => ⟨none, outputs, [], []⟩
  | t :: ts, decoder_input, hidden, outputs =>
    let dh := dec decoder_input hidden encOuts
    match tsliceE target_batch t with
    | .error e => ⟨some e, outputs, [decoder_input], []⟩
    | .ok target =>
      let output := if normQ then normSlice dh.1 else dh.1
      let outputs2 := writeSlice outputs t output
      if useTF then
        let r := unroll dec encOuts useTF normQ target_batch EOS ts target dh.2 outputs2
        ⟨r.err, r.outputs, decoder_input :: r.decInputs, output :: r.stepOuts⟩
      else if dh.1 = EOS then
        ⟨none, outputs2, [decoder_input], [output]⟩
      else
        let r := unroll dec encOuts useTF normQ target_batch EOS ts (detach output) dh.2 outputs2
        ⟨r.err, r.outputs, decoder_input :: r.decInputs, output :: r.stepOuts⟩

/-- Mutable training state threaded through the run: encoder parameters
(with their gradient buffers), decoder parameters, and the two optimizers'
internal state. -/
structure TrainState (P Q S T : Type) : Type where
  encP : P
  decQ : Q
  encS : S
  decT : T

/-- External optimizer pair: step reads the gradients held with the
parameters and produces updated parameters and internal optimizer state
(optimizer.step()); zeroGrad clears the gradient buffers
(optimizer.zero_grad()). -/
structure OptPair (P Q S T : Type) : Type where
  encStep : P → S → P × S
  encZeroGrad : P → P
  decStep : Q → T → Q × T
  decZeroGrad : Q → Q

/-- Scalar loss of lines 118-119 or the per-sample loss list of lines
120-126. -/
abbrev LossVal : Type := ℝ ⊕ List ℝ

/-- Observable outcome of one loss_batch call. -/
structure BatchOutcome (P Q S T : Type) : Type where
  result : Except Err LossVal
  encCalls : ℕ
  decInputs : List Slice
  stepOuts : List Slice
  outSeq : Seq3
  st : TrainState P Q S T
  rngNext : ℕ

section Training

variable {H E P Q S T : Type}

open Classical in
/-- loss_batch (lines 47-126), value-level semantics.  encoderF and
decoderF are the black-box model step functions applied at the current
parameters, backwardF is loss.backward() writing gradients into the
parameter stores, rng and i model the stream behind random.random() (line
71), and tfRatio is the Python parameter teacher_forcing_ratio (call sites
that omit it get the Python default 0.0).  encCalls counts encoder
invocations and decInputs records every input fed to the decoder. -/
noncomputable def loss_batch
    (encoderF : P → Seq3 → E × H)
    (decoderF : Q → Slice → H → Option E → Slice × H)
    (backwardF : ℝ → P → Q → P × Q)
    (data : Seq3 × Seq3) (st : TrainState P Q S T)
    (opts : Option (OptPair P Q S T))
    (criterion : List ℝ → List ℝ → ℝ)
    (rng : ℕ → ℝ) (i : ℕ) (tfRatio : ℝ)
    (use_attention norm_quaternions average_batch : Bool) :
    BatchOutcome P Q S T :=
  let input_batch := data.1
  let target_batch := data.2
  -- line 61: seq_length = input_batch.shape[1]
  let seq_length := (input_batch.headD []).length
  -- lines 63-64: time-major permute(1, 0, 2) and the single encoder pass
  let enc := encoderF st.encP input_batch.transpose
  let decoder_hidden := enc.2
  -- lines 67-68: the indexing target_batch[:, 0, :] fails when the target
  -- has no timesteps; otherwise build the SOS and EOS sentinels
  match tsliceE target_batch 0 with
  | .error e => ⟨.error e, 1, [], [], zeros3 target_batch, st, i⟩
  | .ok slice0 =>
    let decoder_input := onesLike slice0
    let EOS := zerosLike slice0
    let outputs0 := zeros3 target_batch
    -- line 71: the single Bernoulli draw for the whole batch
    let use_teacher_forcing : Bool := decide (rng i < tfRatio)
    -- lines 73-76: fatal configuration check (placed after the encoder pass)
    if !average_batch && opts.isSome then
      ⟨.error .configExit, 1, [], [], outputs0, st, i + 1⟩
    else
      -- lines 79-105
      let r := unroll (decoderF st.decQ)
          (if use_attention then some enc.1 else none)
          use_teacher_forcing norm_quaternions target_batch EOS
          (List.range seq_length) decoder_input decoder_hidden outputs0
      match r.err with
      | some e => ⟨.error e, 1, r.decInputs, r.stepOuts, r.outputs, st, i + 1⟩
      | none =>
        -- line 107
        let loss := criterion (flatten3 r.outputs) (flatten3 target_batch)
        -- lines 109-116: backward, then step and zero both optimizers,
        -- encoder first
        let st2 :=
          match opts with
          | some op =>
            let pq := backwardF loss st.encP st.decQ
            let ps := op.encStep pq.1 st.encS
            let p3 := op.encZeroGrad ps.1
            let qt := op.decStep pq.2 st.decT
            let q3 := op.decZeroGrad qt.1
            ⟨p3, q3, ps.2, qt.2⟩
          | none => st
        if average_batch then
          ⟨.ok (.inl loss), 1, r.decInputs, r.stepOuts, r.outputs, st2, i + 1⟩
        else
          -- lines 120-126: re-evaluate the criterion per sample
          let losses := (r.outputs.zip target_batch).map
            (fun bt => criterion (flatten2 bt.1) (flatten2 bt.2))
          ⟨.ok (.inr losses), 1, r.decInputs, r.stepOuts, r.outputs, st2, i + 1⟩

/-- Snapshot persisted by torch.save at lines 185-190: the four state
dicts. -/
structure Checkpoint (P Q S T : Type) : Type where
  encoder_state : P
  decoder_state : Q
  optimizerA_state : S
  optimizerB_state : T

/-- Observable outcome of a completed fit run: final training state, the
checkpoint writes in order (epoch index, snapshot saved), the per-epoch
validation means (one inner list per epoch, one entry per criterion), the
per-epoch mean training losses, and the final random-stream cursor. -/
structure FitOutcome (P Q S T : Type) : Type where
  st : TrainState P Q S T
  writes : List (ℕ × Checkpoint P Q S T)
  valLog : List (List ℝ)
  trainLog : List ℝ
  rngNext : ℕ

/-- Inner training loop of one epoch (lines 148-161): each batch runs
loss_batch in training mode — the call site omits teacher_forcing_ratio,
so the Python default 0.0 governs every training batch — and then the
progress-logging cadence index % (len(train_dataloader) // 10) is
evaluated, which in Python raises ZeroDivisionError whenever the loader
has fewer than 10 batches. -/
noncomputable def trainBatches
    (encoderF : P → Seq3 → E × H)
    (decoderF : Q → Slice → H → Option E → Slice × H)
    (backwardF : ℝ → P → Q → P × Q)
    (optims : OptPair P Q S T)
    (training_criterion : List ℝ → List ℝ → ℝ)
    (rng : ℕ → ℝ) (numBatches : ℕ)
    (use_attention norm_quaternions : Bool) :
    List (Seq3 × Seq3) → TrainState P Q S T → ℕ → List ℝ →
    Except Err (List ℝ × TrainState P Q S T × ℕ)
  | [], st, i, acc => .ok (acc, st, i)
  | d :: ds, st, i, acc =>
    let o := loss_batch encoderF decoderF backwardF d st (some optims)
        training_criterion rng i 0 use_attention norm_quaternions true
    match o.result with
    | .error e => .error e
    | .ok l =>
      let lv := match l with | .inl v => v | .inr _ => 0
      if numBatches / 10 = 0 then .error .zeroDivision
      else trainBatches encoderF decoderF backwardF optims training_criterion
          rng numBatches use_attention norm_quaternions ds o.st o.rngNext
          (acc ++ [lv])

/-- Validation pass over the loader for one criterion (lines 165-169):
loss_batch in evaluation mode (opts = None, average_batch true by
default). -/
noncomputable def valBatches
    (encoderF : P → Seq3 → E × H)
    (decoderF : Q → Slice → H → Option E → Slice × H)
    (backwardF : ℝ → P → Q → P × Q)
    (criterion : List ℝ → List ℝ → ℝ)
    (rng : ℕ → ℝ) (use_attention norm_quaternions : Bool) :
    List (Seq3 × Seq3) → TrainState P Q S T → ℕ → List ℝ →
    Except Err (List ℝ × TrainState P Q S T × ℕ)
  | [], st, i, acc => .ok (acc, st, i)
  | d :: ds, st, i, acc =>
    let o := loss_batch encoderF decoderF backwardF d st none criterion
        rng i 0 use_attention norm_quaternions true
    match o.result with
    | .error e => .error e
    | .ok l =>
      let lv := match l with | .inl v => v | .inr _ => 0
      valBatches encoderF decoderF backwardF criterion rng use_attention
          norm_quaternions ds o.st o.rngNext (acc ++ [lv])

/-- Loop over validation criteria (lines 162-171): one full pass of the
validation loader per criterion, collecting the mean per-batch loss. -/
noncomputable def valCriteria
    (encoderF : P → Seq3 → E × H)
    (decoderF : Q → Slice → H → Option E → Slice × H)
    (backwardF : ℝ → P → Q → P × Q)
    (rng : ℕ → ℝ) (use_attention norm_quaternions : Bool)
    (val_loader : List (Seq3 × Seq3)) :
    List (List ℝ → List ℝ → ℝ) → TrainState P Q S T → ℕ → List ℝ →
    Except Err (List ℝ × TrainState P Q S T × ℕ)
  | [], st, i, acc => .ok (acc, st, i)
  | c :: cs, st, i, acc =>
    match valBatches encoderF decoderF backwardF c rng use_attention
        norm_quaternions val_loader st i [] with
    | .error e => .error e
    | .ok (ls, st1, i1) =>
      valCriteria encoderF decoderF backwardF rng use_attention
          norm_quaternions val_loader cs st1 i1
          (acc ++ [ls.sum / (ls.length : ℝ)])

open Classical in
/-- Epoch loop of fit (lines 142-190).  ratio is the teacher_forcing_ratio
local of fit: it is decayed at line 181 but never passed to loss_batch.
minv models min_val_loss.  The accumulators carry the checkpoint writes,
the per-epoch validation means and the per-epoch training means in order. -/
noncomputable def fitLoop
    (encoderF : P → Seq3 → E × H)
    (decoderF : Q → Slice → H → Option E → Slice × H)
    (backwardF : ℝ → P → Q → P × Q)
    (optims : OptPair P Q S T)
    (training_criterion : List ℝ → List ℝ → ℝ)
    (validation_criteria : List (List ℝ → List ℝ → ℝ))
    (train_loader val_loader : List (Seq3 × Seq3))
    (rng : ℕ → ℝ) (use_attention norm_quaternions : Bool)
    (schedule_rate : ℝ) :
    ℕ → ℝ → TrainState P Q S T → Option ℝ → ℕ →
    List (ℕ × Checkpoint P Q S T) → List (List ℝ) → List ℝ →
    Except Err (FitOutcome P Q S T)
  | 0, _, st, _, i, ws, vl, tl => .ok ⟨st, ws, vl, tl, i⟩
  | e + 1, ratio, st, minv, i, ws, vl, tl =>
    match trainBatches encoderF decoderF backwardF optims training_criterion
        rng train_loader.length use_attention norm_quaternions
        train_loader st i [] with
    | .error er => .error er
    | .ok (losses, st1, i1) =>
      match valCriteria encoderF decoderF backwardF rng use_attention
          norm_quaternions val_loader validation_criteria st1 i1 [] with
      | .error er => .error er
      | .ok (val_loss, st2, i2) =>
        -- line 174: mean training loss of the epoch
        let trainMean := losses.sum / (losses.length : ℝ)
        -- lines 176-177: scheduler steps (external; no observable modelled)
        -- line 181: decay of the never-used local ratio
        let ratio2 := ratio * schedule_rate
        -- lines 182-190: model selection on val_loss[0] (Python IndexError
        -- when the criteria list is empty)
        match val_loss with
        | [] => .error .indexError
        | v0 :: _ =>
          match minv with
          | none =>
            -- val_loss[0] < math.inf always holds: write the checkpoint
            fitLoop encoderF decoderF backwardF optims training_criterion
                validation_criteria train_loader val_loader rng use_attention
                norm_quaternions schedule_rate
                e ratio2 st2 (some v0) i2
                (ws ++ [(vl.length, ⟨st2.encP, st2.decQ, st2.encS, st2.decT⟩)])
                (vl ++ [val_loss]) (tl ++ [trainMean])
          | some mv =>
            if v0 < mv then
              fitLoop encoderF decoderF backwardF optims training_criterion
                  validation_criteria train_loader val_loader rng use_attention
                  norm_quaternions schedule_rate
                  e ratio2 st2 (some v0) i2
                  (ws ++ [(vl.length, ⟨st2.encP, st2.decQ, st2.encS, st2.decT⟩)])
                  (vl ++ [val_loss]) (tl ++ [trainMean])
            else
              fitLoop encoderF decoderF backwardF optims training_criterion
                  validation_criteria train_loader val_loader rng use_attention
                  norm_quaternions schedule_rate
                  e ratio2 st2 (some mv) i2 ws (vl ++ [val_loss]) (tl ++ [trainMean])

/-- fit (lines 129-190): run fitLoop for the requested number of epochs
starting from math.inf best-seen validation loss and empty logs.  tfRatio0
is the teacher_forcing_ratio argument of fit. -/
noncomputable def fit
    (encoderF : P → Seq3 → E × H)
    (decoderF : Q → Slice → H → Option E → Slice × H)
    (backwardF : ℝ → P → Q → P × Q)
    (optims : OptPair P Q S T) (epochs : ℕ)
    (train_loader val_loader : List (Seq3 × Seq3))
    (training_criterion : List ℝ → List ℝ → ℝ)
    (validation_criteria : List (List ℝ → List ℝ → ℝ))
    (rng : ℕ → ℝ) (st0 : TrainState P Q S T) (i0 : ℕ)
    (tfRatio0 : ℝ) (use_attention norm_quaternions : Bool)
    (schedule_rate : ℝ) :
    Except Err (FitOutcome P Q S T) :=
  fitLoop encoderF decoderF backwardF optims training_criterion
      validation_criteria train_loader val_loader rng use_attention
      norm_quaternions schedule_rate epochs tfRatio0 st0 none i0 [] [] []

/-- Proof-side view of the forward part of loss_batch: the sentinel setup of
lines 67-69 followed by the unrolling loop, with the same arguments the
body of loss_batch passes.  Accessor lemmas below relate loss_batch to this
term so later proofs do not have to re-unfold the whole definition. -/
noncomputable def lbRun
    (encoderF : P → Seq3 → E × H)
    (decoderF : Q → Slice → H → Option E → Slice × H)
    (data : Seq3 × Seq3) (st : TrainState P Q S T)
    (rng : ℕ → ℝ) (i : ℕ) (tfRatio : ℝ)
    (use_attention norm_quaternions : Bool) : UnrollRes :=
  match tsliceE data.2 0 with
  | .error e => ⟨some e, zeros3 data.2, [], []⟩
  | .ok slice0 =>
    unroll (decoderF st.decQ)
      (if use_attention then some (encoderF st.encP data.1.transpose).1 else none)
      (decide (rng i < tfRatio)) norm_quaternions data.2 (zerosLike slice0)
      (List.range (data.1.headD []).length) (onesLike slice0)
      (encoderF st.encP data.1.transpose).2 (zeros3 data.2)

end Training

/-- Self-feeding decoder trajectory (the state (decoder_input, hidden) at
the top of each loop iteration when teacher forcing is off and no EOS has
occurred): step j+1 feeds the detached, optionally re-normalized output of
step j back in, exactly as lines 90-105 do. -/
noncomputable def traj {H E : Type} (dec : Slice → H → Option E → Slice × H)
    (encOuts : Option E) (normQ : Bool) (d0 : Slice) (h0 : H) : ℕ → Slice × H
  | 0 => (d0, h0)
  | j + 1 =>
    let p := traj dec encOuts normQ d0 h0 j
    let o := dec p.1 p.2 encOuts
    (detach (if normQ then normSlice o.1 else o.1), o.2)

/-- Raw decoder output at step j of the self-feeding trajectory (the value
tested against the EOS sentinel at line 103, before normalization). -/
noncomputable def rawOut {H E : Type} (dec : Slice → H → Option E → Slice × H)
    (encOuts : Option E) (normQ : Bool) (d0 : Slice) (h0 : H) (j : ℕ) : Slice :=
  (dec (traj dec encOuts normQ d0 h0 j).1 (traj dec encOuts normQ d0 h0 j).2 encOuts).1

/-- Minimum of a list of validation means, with none for the empty history:
the mathematical content of the min_val_loss accumulator. -/
noncomputable def histMin : List ℝ → Option ℝ
  | [] => none
  | v :: vs =>
    some (match histMin vs with
          | none => v
          | some m => min v m)

/-- Validation mean of criterion 0 recorded for epoch e. -/
def val0 (vl : List (List ℝ)) (e : ℕ) : ℝ := (vl.getD e []).headD 0

/-- Per-row widths of a slice. -/
def sliceShape (s : Slice) : List ℕ := s.map List.length

/-- Well-shaped [1, B, F] slice: B rows of F features each. -/
def RectSlice (B F : ℕ) (s : Slice) : Prop :=
  s.length = B ∧ ∀ v ∈ s, v.length = F

/-- Well-shaped [B, T, F] tensor: B samples, T timesteps, F features. -/
def Rect3 (B T F : ℕ) (x : Seq3) : Prop :=
  x.length = B ∧ ∀ row ∈ x, row.length = T ∧ ∀ v ∈ row, v.length = F

/-- Mean-reduced elementwise criterion, the flatten-invariant family (MSE,
L1, ...) that the training and validation criteria of this code base
instantiate: mean over all aligned elements of a pointwise loss f. -/
noncomputable def meanPointwise (f : ℝ → ℝ → ℝ) (xs ys : List ℝ) : ℝ :=
  (List.zipWith f xs ys).sum / (xs.length : ℝ)

section Theorems

variable {H E P Q S T : Type}
variable (encoderF : P → Seq3 → E × H)
variable (decoderF : Q → Slice → H → Option E → Slice × H)
variable (backwardF : ℝ → P → Q → P × Q)
variable (data : Seq3 × Seq3) (st : TrainState P Q S T)
variable (opts : Option (OptPair P Q S T))
variable (criterion : List ℝ → List ℝ → ℝ)
variable (rng : ℕ → ℝ) (i : ℕ) (tfRatio : ℝ)
variable (ua nq ab : Bool)

/-- Value extracted by a successful tensor time-slice read. -/
lemma tsliceE_ok_val (x : Seq3) (t : ℕ) (s : Slice)
    (h : tsliceE x t = Except.ok s) : s = sliceAtD x t := by
  unfold tsliceE at h
  split at h
  · injection h with h; exact h.symm
  · exact absurd h (by simp)

/-- Once the configuration guard is passed, the decoder-input trace of
loss_batch is the one of the unrolling loop. -/
lemma lb_decInputs (hg : (!ab && opts.isSome) = false) :
    (loss_batch encoderF decoderF backwardF data st opts criterion rng i
        tfRatio ua nq ab).decInputs
      = (lbRun encoderF decoderF data st rng i tfRatio ua nq).decInputs := by
  unfold loss_batch lbRun
  cases htc2 : tsliceE data.2 0 with
  | error e => simp only [htc2]
  | ok s0 =>
    simp only [htc2, hg, Bool.false_eq_true, if_false]
    (repeat' split) <;> rfl

/-- Once the configuration guard is passed, the step-output trace of
loss_batch is the one of the unrolling loop. -/
lemma lb_stepOuts (hg : (!ab && opts.isSome) = false) :
    (loss_batch encoderF decoderF backwardF data st opts criterion rng i
        tfRatio ua nq ab).stepOuts
      = (lbRun encoderF decoderF data st rng i tfRatio ua nq).stepOuts := by
  unfold loss_batch lbRun
  cases htc2 : tsliceE data.2 0 with
  | error e => simp only [htc2]
  | ok s0 =>
    simp only [htc2, hg, Bool.false_eq_true, if_false]
    (repeat' split) <;> rfl

/-- Once the configuration guard is passed, the assembled OutputSequence of
loss_batch is the one of the unrolling loop. -/
lemma lb_outSeq (hg : (!ab && opts.isSome) = false) :
    (loss_batch encoderF decoderF backwardF data st opts criterion rng i
        tfRatio ua nq ab).outSeq
      = (lbRun encoderF decoderF data st rng i tfRatio ua nq).outputs := by
  unfold loss_batch lbRun
  cases htc2 : tsliceE data.2 0 with
  | error e => simp only [htc2]
  | ok s0 =>
    simp only [htc2, hg, Bool.false_eq_true, if_false]
    (repeat' split) <;> rfl

/-- loss_batch consumes exactly one random number whenever line 71 is
reached, i.e. whenever the sentinel construction of line 67 succeeds. -/
lemma lb_rngNext (s0 : Slice) (htc : tsliceE data.2 0 = Except.ok s0) :
    (loss_batch encoderF decoderF backwardF data st opts criterion rng i
        tfRatio ua nq ab).rngNext = i + 1 := by
  unfold loss_batch
  cases htc2 : tsliceE data.2 0 with
  | error e =>
    rw [htc] at htc2
    simp at htc2
  | ok s1 =>
    simp only [htc2]
    (repeat' split) <;> rfl

/-- Scalar-loss form of a successful average_batch run of loss_batch. -/
lemma lb_result_avg (hg : (!ab && opts.isSome) = false) (hab : ab = true)
    (hrun : (lbRun encoderF decoderF data st rng i tfRatio ua nq).err = none) :
    (loss_batch encoderF decoderF backwardF data st opts criterion rng i
        tfRatio ua nq ab).result
      = Except.ok (Sum.inl (criterion
          (flatten3 (lbRun encoderF decoderF data st rng i tfRatio ua nq).outputs)
          (flatten3 data.2))) := by
  subst hab
  unfold lbRun at hrun
  unfold loss_batch lbRun
  cases htc : tsliceE data.2 0 with
  | error e =>
    simp only [htc] at hrun
    exact absurd hrun (by simp)
  | ok s0 =>
    simp only [htc] at hrun ⊢
    simp only [hg, Bool.false_eq_true, if_false]
    simp only [hrun]
    rfl

/-- Per-sample form of a successful average_batch = false evaluation run. -/
lemma lb_result_per (hg : (!ab && opts.isSome) = false) (hab : ab = false)
    (hrun : (lbRun encoderF decoderF data st rng i tfRatio ua nq).err = none) :
    (loss_batch encoderF decoderF backwardF data st opts criterion rng i
        tfRatio ua nq ab).result
      = Except.ok (Sum.inr
          (((lbRun encoderF decoderF data st rng i tfRatio ua nq).outputs.zip
              data.2).map
            (fun bt => criterion (flatten2 bt.1) (flatten2 bt.2)))) := by
  subst hab
  unfold lbRun at hrun
  unfold loss_batch lbRun
  cases htc : tsliceE data.2 0 with
  | error e =>
    simp only [htc] at hrun
    exact absurd hrun (by simp)
  | ok s0 =>
    simp only [htc] at hrun ⊢
    simp only [hg, Bool.false_eq_true, if_false]
    simp only [hrun]

/-- C10: an evaluation-mode invocation of loss_batch (no OptimizerPair
present) leaves the encoder parameters, the decoder parameters and both
optimizers' internal state exactly as they were; the training state is
rebuilt, through backward and the two optimizer step/zero calls of lines
109-116, only when optimizers are present. -/
theorem eval_mode_preserves_state (h : opts = none) :
    (loss_batch encoderF decoderF backwardF data st opts criterion rng i
        tfRatio ua nq ab).st = st := by
  subst h
  unfold loss_batch
  cases htc2 : tsliceE data.2 0 with
  | error e => simp only [htc2]
  | ok s0 =>
    simp only [htc2, Option.isSome_none, Bool.and_false, Bool.false_eq_true,
      if_false]
    (repeat' split) <;> rfl

/-- Witness for C10 at a concrete evaluation-mode call. -/
theorem eval_mode_preserves_state_witness :
    (loss_batch (fun (_ : Unit) (_ : Seq3) => ((), ()))
        (fun (_ : Unit) (_ : Slice) (_ : Unit) (_ : Option Unit) => ([([1] : Vec)], ()))
        (fun _ p q => (p, q)) ([[[1]]], [[[1]]]) ⟨(), (), (), ()⟩ none
        (fun _ _ => 0) (fun _ => 1/2) 0 0 false false true).st
      = ⟨(), (), (), ()⟩ :=
  eval_mode_preserves_state _ _ _ _ _ _ _ _ _ _ _ _ _ rfl

/-- C2 (amended): invoking loss_batch with average_batch = false while an
OptimizerPair is present fails fatally with the configuration exit of
lines 73-76 — after the single encoder forward of line 64 but before any
decoder invocation — and returns no loss value and leaves the training
state untouched.  (The claim as frozen asserts that not even the encoder
runs; the counterexample shows the encoder forward of line 64 does run.) -/
theorem config_exit_after_encoder_before_decoder
    (op : OptPair P Q S T) (s0 : Slice)
    (hop : opts = some op) (hab : ab = false)
    (htc : tsliceE data.2 0 = Except.ok s0) :
    (loss_batch encoderF decoderF backwardF data st opts criterion rng i
        tfRatio ua nq ab).result = Except.error Err.configExit ∧
    (loss_batch encoderF decoderF backwardF data st opts criterion rng i
        tfRatio ua nq ab).encCalls = 1 ∧
    (loss_batch encoderF decoderF backwardF data st opts criterion rng i
        tfRatio ua nq ab).decInputs = [] ∧
    (loss_batch encoderF decoderF backwardF data st opts criterion rng i
        tfRatio ua nq ab).st = st := by
  subst hop hab
  unfold loss_batch
  cases htc2 : tsliceE data.2 0 with
  | error e =>
    rw [htc] at htc2
    simp at htc2
  | ok s1 =>
    simp only [htc2]
    exact ⟨rfl, rfl, rfl, rfl⟩

/-- Counterexample to C2 as frozen: at this concrete training-mode call
with average_batch = false the fatal configuration exit does occur, but
the encoder has already been invoked once — the check of lines 73-76 sits
after the encoder forward of line 64 — contradicting that the call fails
before any forward computation. -/
theorem encoder_runs_before_config_exit_cex :
    (loss_batch (fun (_ : Unit) (_ : Seq3) => ((), ()))
        (fun (_ : Unit) (_ : Slice) (_ : Unit) (_ : Option Unit) => ([([1] : Vec)], ()))
        (fun _ p q => (p, q)) ([[[1]]], [[[1]]]) ⟨(), (), (), ()⟩
        (some ⟨fun p s => (p, s), id, fun q t => (q, t), id⟩)
        (fun _ _ => 0) (fun _ => 1/2) 0 0 false false false).encCalls = 1 ∧
    (loss_batch (fun (_ : Unit) (_ : Seq3) => ((), ()))
        (fun (_ : Unit) (_ : Slice) (_ : Unit) (_ : Option Unit) => ([([1] : Vec)], ()))
        (fun _ p q => (p, q)) ([[[1]]], [[[1]]]) ⟨(), (), (), ()⟩
        (some ⟨fun p s => (p, s), id, fun q t => (q, t), id⟩)
        (fun _ _ => 0) (fun _ => 1/2) 0 0 false false false).result
      = Except.error Err.configExit :=
  ⟨rfl, rfl⟩

/-- Witness for the amended C2 at a concrete call. -/
theorem config_exit_after_encoder_before_decoder_witness :
    (loss_batch (fun (_ : Unit) (_ : Seq3) => ((), ()))
        (fun (_ : Unit) (_ : Slice) (_ : Unit) (_ : Option Unit) => ([([2] : Vec)], ()))
        (fun _ p q => (p, q)) ([[[2]]], [[[2]]]) ⟨(), (), (), ()⟩
        (some ⟨fun p s => (p, s), id, fun q t => (q, t), id⟩)
        (fun _ _ => 0) (fun _ => 1/2) 0 0 false false false).result
      = Except.error Err.configExit :=
  (config_exit_after_encoder_before_decoder
      (fun (_ : Unit) (_ : Seq3) => ((), ()))
      (fun (_ : Unit) (_ : Slice) (_ : Unit) (_ : Option Unit) => ([([2] : Vec)], ()))
      (fun _ p q => (p, q)) ([[[2]]], [[[2]]]) ⟨(), (), (), ()⟩
      (some ⟨fun p s => (p, s), id, fun q t => (q, t), id⟩)
      (fun _ _ => 0) (fun _ => 1/2) 0 0 false false false
      ⟨fun p s => (p, s), id, fun q t => (q, t), id⟩ [[2]] rfl rfl rfl).1

/-- C9: when the training loader is nonempty with fewer than 10 batches
and its first batch itself computes a loss, fit fails with the Python
ZeroDivisionError of line 157 (index % (len(train_dataloader) // 10),
where len(train_dataloader) // 10 is the integer 0) while handling the
very first training batch of the first epoch, so no epoch ever
completes. -/
theorem small_loader_div_by_zero
    (optims : OptPair P Q S T)
    (validation_criteria : List (List ℝ → List ℝ → ℝ))
    (val_loader : List (Seq3 × Seq3)) (schedule_rate : ℝ)
    (d : Seq3 × Seq3) (ds : List (Seq3 × Seq3)) (epochs : ℕ) (lv : LossVal)
    (hlen : (d :: ds).length < 10)
    (hok : (loss_batch encoderF decoderF backwardF d st (some optims)
        criterion rng i 0 ua nq true).result = Except.ok lv) :
    fit encoderF decoderF backwardF optims (epochs + 1) (d :: ds) val_loader
        criterion validation_criteria rng st i tfRatio ua nq schedule_rate
      = Except.error Err.zeroDivision := by
  unfold fit fitLoop trainBatches
  have hdiv : (d :: ds).length / 10 = 0 := Nat.div_eq_of_lt hlen
  simp only [hok, hdiv, eq_self_iff_true, if_true]

/-- Witness for C9: a single trivial training batch (fewer than 10 in the
loader) makes fit fail with the division-by-zero error. -/
theorem small_loader_div_by_zero_witness :
    fit (fun (_ : Unit) (_ : Seq3) => ((), ()))
        (fun (_ : Unit) (_ : Slice) (_ : Unit) (_ : Option Unit) => ([([1] : Vec)], ()))
        (fun _ p q => (p, q))
        ⟨fun p s => (p, s), id, fun q t => (q, t), id⟩ (0 + 1)
        (([[]], [[[0]]]) :: []) [] (fun _ _ => 0) [] (fun _ => 1/2)
        ⟨(), (), (), ()⟩ 0 0 false false 1
      = Except.error Err.zeroDivision :=
  small_loader_div_by_zero (fun (_ : Unit) (_ : Seq3) => ((), ()))
      (fun (_ : Unit) (_ : Slice) (_ : Unit) (_ : Option Unit) => ([([1] : Vec)], ()))
      (fun _ p q => (p, q)) ⟨(), (), (), ()⟩ (fun _ _ => 0) (fun _ => 1/2)
      0 0 false false
      ⟨fun p s => (p, s), id, fun q t => (q, t), id⟩ [] [] 1
      ([[]], [[[0]]]) [] 0 (Sum.inl 0) (by decide) rfl

/-- Observable behavior of fitLoop does not depend on the threaded ratio:
the ratio is only multiplied by schedule_rate and passed on, never read. -/
lemma fitLoop_ratio_irrel
    (optims : OptPair P Q S T)
    (validation_criteria : List (List ℝ → List ℝ → ℝ))
    (train_loader val_loader : List (Seq3 × Seq3)) (schedule_rate : ℝ) :
    ∀ (e : ℕ) (r1 r2 : ℝ) (stx : TrainState P Q S T) (minv : Option ℝ)
      (ix : ℕ) (ws : List (ℕ × Checkpoint P Q S T)) (vl : List (List ℝ))
      (tl : List ℝ),
      fitLoop encoderF decoderF backwardF optims criterion
          validation_criteria train_loader val_loader rng ua nq schedule_rate
          e r1 stx minv ix ws vl tl
        = fitLoop encoderF decoderF backwardF optims criterion
          validation_criteria train_loader val_loader rng ua nq schedule_rate
          e r2 stx minv ix ws vl tl := by
  intro e
  induction e with
  | zero => intro r1 r2 stx minv ix ws vl tl; rfl
  | succ e ih =>
    intro r1 r2 stx minv ix ws vl tl
    unfold fitLoop
    cases htb : trainBatches encoderF decoderF backwardF optims criterion rng
        train_loader.length ua nq train_loader stx ix [] with
    | error er => simp only [htb]
    | ok p =>
      obtain ⟨losses, st1, i1⟩ := p
      simp only [htb]
      cases hvc : valCriteria encoderF decoderF backwardF rng ua nq
          val_loader validation_criteria st1 i1 [] with
      | error er => simp only [hvc]
      | ok q =>
        obtain ⟨val_loss, st2, i2⟩ := q
        simp only [hvc]
        cases val_loss with
        | nil => rfl
        | cons v0 rest =>
          cases minv with
          | none => exact ih _ _ _ _ _ _ _ _
          | some mv =>
            classical
            show (if v0 < mv then _ else _) = (if v0 < mv then _ else _)
            by_cases himp : v0 < mv
            · rw [if_pos himp, if_pos himp]
              exact ih _ _ _ _ _ _ _ _
            · rw [if_neg himp, if_neg himp]
              exact ih _ _ _ _ _ _ _ _

/-- With the guard failing (training mode with average_batch = false), the
unrolling loop is never entered. -/
lemma lb_config_decInputs (hg : (!ab && opts.isSome) = true) :
    (loss_batch encoderF decoderF backwardF data st opts criterion rng i
        tfRatio ua nq ab).decInputs = [] := by
  unfold loss_batch
  cases htc2 : tsliceE data.2 0 with
  | error e => simp only [htc2]
  | ok s0 => simp only [htc2, hg, if_true]

/-- Every nonempty decoder-input trace of the unrolling loop starts with
the input the loop was entered with. -/
lemma unroll_decInputs_head {H E : Type} (dec : Slice → H → Option E → Slice × H)
    (encOuts : Option E) (useTF normQ : Bool) (tb : Seq3) (EOS : Slice)
    (ts : List ℕ) (d0 : Slice) (h0 : H) (outs : Seq3) (v : Slice)
    (hv : (unroll dec encOuts useTF normQ tb EOS ts d0 h0 outs).decInputs[0]?
        = some v) :
    v = d0 := by
  cases ts with
  | nil => simp [unroll] at hv
  | cons t ts =>
    simp only [unroll] at hv
    split at hv
    · simp_all
    · split at hv
      · simp_all
      · split at hv
        · simp_all
        · simp_all

/-- Under teacher forcing, the decoder input at the (k+1)-st invocation is
the target slice consumed at the k-th timestep index. -/
lemma unroll_tf_inputs {H E : Type} (dec : Slice → H → Option E → Slice × H)
    (encOuts : Option E) (normQ : Bool) (tb : Seq3) (EOS : Slice) :
    ∀ (ts : List ℕ) (d0 : Slice) (h0 : H) (outs : Seq3) (k : ℕ) (v : Slice),
      (unroll dec encOuts true normQ tb EOS ts d0 h0 outs).decInputs[k + 1]?
          = some v →
      ∃ tk, ts[k]? = some tk ∧ v = sliceAtD tb tk := by
  intro ts
  induction ts with
  | nil =>
    intro d0 h0 outs k v hv
    simp [unroll] at hv
  | cons t ts ih =>
    intro d0 h0 outs k v hv
    simp only [unroll] at hv
    cases htc : tsliceE tb t with
    | error e =>
      simp only [htc] at hv
      simp at hv
    | ok tgt =>
      simp only [htc, eq_self_iff_true, if_true] at hv
      rw [List.getElem?_cons_succ] at hv
      cases k with
      | zero =>
        have hval := unroll_decInputs_head dec encOuts true normQ tb EOS ts
          tgt _ _ v hv
        refine ⟨t, by simp, ?_⟩
        rw [hval]
        exact tsliceE_ok_val tb t tgt htc
      | succ k =>
        obtain ⟨tk, h1, h2⟩ := ih tgt _ _ k v hv
        exact ⟨tk, by simpa using h1, h2⟩

/-- Under self-feeding (no teacher forcing), the decoder input at the
(k+1)-st invocation is exactly the step output recorded at the k-th
invocation (fed back after detach). -/
lemma unroll_sf_inputs {H E : Type} (dec : Slice → H → Option E → Slice × H)
    (encOuts : Option E) (normQ : Bool) (tb : Seq3) (EOS : Slice) :
    ∀ (ts : List ℕ) (d0 : Slice) (h0 : H) (outs : Seq3) (k : ℕ) (v : Slice),
      (unroll dec encOuts false normQ tb EOS ts d0 h0 outs).decInputs[k + 1]?
          = some v →
      (unroll dec encOuts false normQ tb EOS ts d0 h0 outs).stepOuts[k]?
          = some v := by
  intro ts
  induction ts with
  | nil =>
    intro d0 h0 outs k v hv
    simp [unroll] at hv
  | cons t ts ih =>
    intro d0 h0 outs k v hv
    simp only [unroll] at hv ⊢
    cases htc : tsliceE tb t with
    | error e =>
      simp only [htc] at hv
      simp at hv
    | ok tgt =>
      simp only [htc, Bool.false_eq_true, if_false] at hv ⊢
      by_cases hE : (dec d0 h0 encOuts).1 = EOS
      · rw [if_pos hE] at hv
        simp at hv
      · rw [if_neg hE] at hv
        rw [if_neg hE]
        rw [List.getElem?_cons_succ] at hv
        cases k with
        | zero =>
          have hval := unroll_decInputs_head dec encOuts false normQ tb EOS ts
            _ _ _ v hv
          subst hval
          simp [detach]
        | succ k =>
          have hrec := ih _ _ _ k v hv
          simpa using hrec

/-- C7: loss_batch draws exactly one Bernoulli sample per batch — the
random cursor advances by exactly one, however many timesteps are unrolled
— and that single draw fixes the mode of the entire sequence: with ratio
exactly 1.0 the decoder input at every timestep t+1 is the target at
timestep t regardless of the decoder output, and with ratio exactly 0.0
the decoder input at every timestep t+1 is the (gradient-detached,
value-identical) step output of timestep t and never comes from the
target. -/
theorem single_draw_and_mode_determinism
    (s0 : Slice)
    (htc : tsliceE data.2 0 = Except.ok s0)
    (hr0 : 0 ≤ rng i) (hr1 : rng i < 1) :
    (loss_batch encoderF decoderF backwardF data st opts criterion rng i
        tfRatio ua nq ab).rngNext = i + 1 ∧
    (∀ k v,
       (loss_batch encoderF decoderF backwardF data st opts criterion rng i
           1 ua nq ab).decInputs[k + 1]? = some v →
       v = sliceAtD data.2 k) ∧
    (∀ k v,
       (loss_batch encoderF decoderF backwardF data st opts criterion rng i
           0 ua nq ab).decInputs[k + 1]? = some v →
       (loss_batch encoderF decoderF backwardF data st opts criterion rng i
           0 ua nq ab).stepOuts[k]? = some v) := by
  have hd1 : decide (rng i < (1 : ℝ)) = true := decide_eq_true hr1
  have hd0 : decide (rng i < (0 : ℝ)) = false := decide_eq_false (not_lt.mpr hr0)
  refine ⟨lb_rngNext encoderF decoderF backwardF data st opts criterion rng i
      tfRatio ua nq ab s0 htc, ?_, ?_⟩
  · intro k v hv
    by_cases hg : (!ab && opts.isSome) = true
    · rw [lb_config_decInputs encoderF decoderF backwardF data st opts
          criterion rng i 1 ua nq ab hg] at hv
      simp at hv
    · have hg2 : (!ab && opts.isSome) = false := by
        cases hb : (!ab && opts.isSome)
        · rfl
        · exact absurd hb hg
      rw [lb_decInputs encoderF decoderF backwardF data st opts criterion rng i
          1 ua nq ab hg2] at hv
      simp only [lbRun, htc, hd1] at hv
      obtain ⟨tk, h1, h2⟩ := unroll_tf_inputs (decoderF st.decQ) _ nq data.2
        (zerosLike s0) (List.range (data.1.headD []).length) (onesLike s0)
        _ (zeros3 data.2) k v hv
      have hk : k < (List.range (data.1.headD []).length).length := by
        by_contra hk
        rw [List.getElem?_eq_none (le_of_not_lt hk)] at h1
        cases h1
      rw [List.getElem?_eq_getElem hk] at h1
      injection h1 with h1
      rw [h2, ← h1]
      congr 1
      simp
  · intro k v hv
    by_cases hg : (!ab && opts.isSome) = true
    · rw [lb_config_decInputs encoderF decoderF backwardF data st opts
          criterion rng i 0 ua nq ab hg] at hv
      simp at hv
    · have hg2 : (!ab && opts.isSome) = false := by
        cases hb : (!ab && opts.isSome)
        · rfl
        · exact absurd hb hg
      rw [lb_decInputs encoderF decoderF backwardF data st opts criterion rng i
          0 ua nq ab hg2] at hv
      rw [lb_stepOuts encoderF decoderF backwardF data st opts criterion rng i
          0 ua nq ab hg2]
      simp only [lbRun, htc, hd0] at hv ⊢
      exact unroll_sf_inputs (decoderF st.decQ) _ nq data.2 (zerosLike s0)
        (List.range (data.1.headD []).length) (onesLike s0) _ (zeros3 data.2)
        k v hv

/-- Witness for C7 at a concrete call (the ratio argument of the first
conjunct instantiated with an arbitrary value 7). -/
theorem single_draw_and_mode_determinism_witness :
    (loss_batch (fun (_ : Unit) (_ : Seq3) => ((), ()))
        (fun (_ : Unit) (_ : Slice) (_ : Unit) (_ : Option Unit) => ([([1] : Vec)], ()))
        (fun _ p q => (p, q)) ([[[1]]], [[[1]]]) ⟨(), (), (), ()⟩ none
        (fun _ _ => 0) (fun _ => 1/2) 0 7 false false true).rngNext = 0 + 1 :=
  (single_draw_and_mode_determinism (fun (_ : Unit) (_ : Seq3) => ((), ()))
      (fun (_ : Unit) (_ : Slice) (_ : Unit) (_ : Option Unit) => ([([1] : Vec)], ()))
      (fun _ p q => (p, q)) ([[[1]]], [[[1]]]) ⟨(), (), (), ()⟩ none
      (fun _ _ => 0) (fun _ => 1/2) 0 7 false false true
      [[1]] rfl (by norm_num) (by norm_num)).1

/-- C1 (code bug): the observable behavior of fit is completely
independent of its teacher_forcing_ratio argument.  The training call of
lines 150-153 omits the teacher_forcing_ratio keyword, so every training
batch draws its Bernoulli sample against the loss_batch default 0.0, and
the ratio that fit decays at line 181 is dead state — contrary to the
claim that the ratio fit maintains and decays governs the draw inside
each training batch. -/
theorem fit_ignores_teacher_forcing_ratio
    (optims : OptPair P Q S T)
    (validation_criteria : List (List ℝ → List ℝ → ℝ))
    (train_loader val_loader : List (Seq3 × Seq3)) (schedule_rate : ℝ)
    (epochs : ℕ) (r1 r2 : ℝ) :
    fit encoderF decoderF backwardF optims epochs train_loader val_loader
        criterion validation_criteria rng st i r1 ua nq schedule_rate
      = fit encoderF decoderF backwardF optims epochs train_loader val_loader
        criterion validation_criteria rng st i r2 ua nq schedule_rate := by
  unfold fit
  exact fitLoop_ratio_irrel encoderF decoderF backwardF criterion rng ua nq
      optims validation_criteria train_loader val_loader schedule_rate
      epochs r1 r2 st none i [] [] []

/-- Successful time-slice read on a well-shaped tensor. -/
lemma tsliceE_ok_of_rect (B m F : ℕ) (x : Seq3) (t : ℕ)
    (hx : Rect3 B m F x) (ht : t < m) :
    tsliceE x t = Except.ok (sliceAtD x t) := by
  unfold tsliceE
  rw [if_pos]
  · rfl
  · rw [List.all_eq_true]
    intro row hrow
    exact decide_eq_true ((hx.2 row hrow).1 ▸ ht)

/-- writeSlice keeps a well-shaped output tensor well-shaped. -/
lemma writeSlice_rect (B m F t : ℕ) (x : Seq3) (s : Slice)
    (hx : Rect3 B m F x) (hs : RectSlice B F s) :
    Rect3 B m F (writeSlice x t s) := by
  obtain ⟨hxl, hxr⟩ := hx
  obtain ⟨hsl, hsr⟩ := hs
  constructor
  · rw [writeSlice, List.length_zipWith, hxl, hsl, min_self]
  · intro row hrow
    rw [writeSlice, List.mem_iff_getElem] at hrow
    obtain ⟨j, hj, hrow⟩ := hrow
    rw [List.length_zipWith, hxl, hsl, min_self] at hj
    rw [List.getElem_zipWith] at hrow
    subst hrow
    have hxmem : x.get ⟨j, hxl ▸ hj⟩ ∈ x := List.get_mem _ _ _
    have hsmem : s.get ⟨j, hsl ▸ hj⟩ ∈ s := List.get_mem _ _ _
    constructor
    · rw [List.length_set]
      exact (hxr _ hxmem).1
    · intro v hv
      rcases List.mem_or_eq_of_mem_set hv with hv | hv
      · exact (hxr _ hxmem).2 v hv
      · subst hv
        exact hsr _ hsmem

/-- Shape of a well-shaped tensor is the replicated rectangle. -/
lemma rect3_shape (B m F : ℕ) (x : Seq3) (h : Rect3 B m F x) :
    shape3 x = List.replicate B (List.replicate m F) := by
  obtain ⟨hl, hr⟩ := h
  rw [shape3, List.eq_replicate_iff]
  refine ⟨by simpa using hl, ?_⟩
  intro b hb
  rw [List.mem_map] at hb
  obtain ⟨row, hrow, hb⟩ := hb
  subst hb
  rw [shape2, List.eq_replicate_iff]
  exact ⟨by simpa using (hr row hrow).1, by
    intro c hc
    rw [List.mem_map] at hc
    obtain ⟨v, hv, hc⟩ := hc
    subst hc
    exact (hr row hrow).2 v hv⟩

/-- zeros_like keeps the tensor well-shaped. -/
lemma zeros3_rect (B m F : ℕ) (x : Seq3) (h : Rect3 B m F x) :
    Rect3 B m F (zeros3 x) := by
  obtain ⟨hl, hr⟩ := h
  constructor
  · simpa [zeros3] using hl
  · intro row hrow
    rw [zeros3, List.mem_map] at hrow
    obtain ⟨row0, hrow0, hrow⟩ := hrow
    subst hrow
    refine ⟨by simpa using (hr row0 hrow0).1, ?_⟩
    intro v hv
    rw [List.mem_map] at hv
    obtain ⟨v0, hv0, hv⟩ := hv
    subst hv
    simpa using (hr row0 hrow0).2 v0 hv0

/-- Re-flattening the chunked view restores the original flat tensor. -/
lemma toChunks4_flatten_aux :
    ∀ (n : ℕ) (xs : List ℝ), xs.length ≤ n → (toChunks4 xs).flatten = xs := by
  intro n
  induction n with
  | zero =>
    intro xs h
    rw [List.length_eq_zero.mp (Nat.le_zero.mp h)]
    simp [toChunks4]
  | succ n ih =>
    intro xs h
    cases xs with
    | nil => simp [toChunks4]
    | cons x xs =>
      simp only [toChunks4, List.flatten_cons]
      rw [ih (xs.drop 3) (by rw [List.length_drop]; simp at h; omega)]
      simp [List.take_append_drop]

/-- Re-flattening the chunked view restores the original flat tensor. -/
lemma toChunks4_flatten (xs : List ℝ) : (toChunks4 xs).flatten = xs :=
  toChunks4_flatten_aux xs.length xs le_rfl

/-- Per-chunk normalization preserves length. -/
lemma normalizeChunk_length (v : List ℝ) :
    (normalizeChunk v).length = v.length := by
  rw [normalizeChunk, List.length_map]

/-- The quaternion renormalization of lines 95-96 preserves the element
count. -/
lemma normalizeQuat_length (xs : List ℝ) :
    (normalizeQuat xs).length = xs.length := by
  rw [normalizeQuat, List.length_flatten, List.map_map]
  have hc : (List.length ∘ normalizeChunk) = List.length :=
    funext fun c => normalizeChunk_length c
  rw [hc, ← List.length_flatten, toChunks4_flatten]

/-- Restoring a sufficiently long flat tensor into a template shape yields
that shape. -/
lemma unflattenLike_shape :
    ∀ (s : Slice) (ys : List ℝ), (flatten2 s).length ≤ ys.length →
    sliceShape (unflattenLike s ys) = sliceShape s := by
  intro s
  induction s with
  | nil => intro ys h; rfl
  | cons r rs ih =>
    intro ys h
    have hlen : r.length + (flatten2 rs).length ≤ ys.length := by
      simpa [flatten2] using h
    show (ys.take r.length).length
          :: sliceShape (unflattenLike rs (ys.drop r.length))
        = r.length :: sliceShape rs
    rw [List.length_take, min_eq_left (by omega),
      ih (ys.drop r.length) (by rw [List.length_drop]; omega)]

/-- Lines 92-96 do not change the shape of the step output. -/
lemma normSlice_shape (s : Slice) : sliceShape (normSlice s) = sliceShape s := by
  unfold normSlice
  exact unflattenLike_shape s _ (le_of_eq (normalizeQuat_length _).symm)

/-- RectSlice in terms of the shape vector. -/
lemma rectSlice_shape_iff (B F : ℕ) (s : Slice) :
    RectSlice B F s ↔ sliceShape s = List.replicate B F := by
  rw [RectSlice, sliceShape, List.eq_replicate_iff]
  constructor
  · rintro ⟨h1, h2⟩
    refine ⟨by simpa using h1, ?_⟩
    intro b hb
    rw [List.mem_map] at hb
    obtain ⟨v, hv, hb⟩ := hb
    exact hb ▸ h2 v hv
  · rintro ⟨h1, h2⟩
    refine ⟨by simpa using h1, ?_⟩
    intro v hv
    exact h2 v.length (List.mem_map_of_mem List.length hv)

/-- Lines 92-96 keep a well-shaped step output well-shaped. -/
lemma normSlice_rect (B F : ℕ) (s : Slice) (h : RectSlice B F s) :
    RectSlice B F (normSlice s) := by
  rw [rectSlice_shape_iff] at h ⊢
  rw [normSlice_shape]
  exact h

/-- The unrolling loop cannot fail when every consumed timestep index is a
valid target index. -/
lemma unroll_err_none {H E : Type} (dec : Slice → H → Option E → Slice × H)
    (encOuts : Option E) (useTF normQ : Bool) (tb : Seq3) (EOS : Slice) :
    ∀ (ts : List ℕ) (d0 : Slice) (h0 : H) (outs : Seq3),
      (∀ t ∈ ts, ∃ s, tsliceE tb t = Except.ok s) →
      (unroll dec encOuts useTF normQ tb EOS ts d0 h0 outs).err = none := by
  intro ts
  induction ts with
  | nil => intro d0 h0 outs hts; rfl
  | cons t ts ih =>
    intro d0 h0 outs hts
    obtain ⟨s, hs⟩ := hts t (List.mem_cons_self t ts)
    simp only [unroll, hs]
    split
    · exact ih _ _ _ (fun u hu => hts u (List.mem_cons_of_mem t hu))
    · split
      · rfl
      · exact ih _ _ _ (fun u hu => hts u (List.mem_cons_of_mem t hu))

/-- One decoder invocation per loop iteration, at most one iteration per
timestep of the driving index list. -/
lemma unroll_len {H E : Type} (dec : Slice → H → Option E → Slice × H)
    (encOuts : Option E) (useTF normQ : Bool) (tb : Seq3) (EOS : Slice) :
    ∀ (ts : List ℕ) (d0 : Slice) (h0 : H) (outs : Seq3),
      (unroll dec encOuts useTF normQ tb EOS ts d0 h0 outs).decInputs.length
        ≤ ts.length := by
  intro ts
  induction ts with
  | nil => intro d0 h0 outs; simp [unroll]
  | cons t ts ih =>
    intro d0 h0 outs
    simp only [unroll]
    cases htc : tsliceE tb t with
    | error e => simp only [htc]; simp
    | ok s =>
      simp only [htc]
      split
      · simpa using Nat.succ_le_succ (ih _ _ _)
      · split
        · simp
        · simpa using Nat.succ_le_succ (ih _ _ _)

/-- The assembled OutputSequence keeps the shape it is initialized with
(the target's), whatever the loop does, provided the decoder emits
well-shaped slices. -/
lemma unroll_rect {H E : Type} (dec : Slice → H → Option E → Slice × H)
    (encOuts : Option E) (useTF normQ : Bool) (tb : Seq3) (EOS : Slice)
    (B m F : ℕ)
    (hdec : ∀ inp hh, RectSlice B F (dec inp hh encOuts).1) :
    ∀ (ts : List ℕ) (d0 : Slice) (h0 : H) (outs : Seq3), Rect3 B m F outs →
      Rect3 B m F (unroll dec encOuts useTF normQ tb EOS ts d0 h0 outs).outputs := by
  intro ts
  induction ts with
  | nil => intro d0 h0 outs ho; exact ho
  | cons t ts ih =>
    intro d0 h0 outs ho
    simp only [unroll]
    cases htc : tsliceE tb t with
    | error e => simp only [htc]; exact ho
    | ok s =>
      simp only [htc]
      have hout : RectSlice B F
          (if normQ = true then normSlice (dec d0 h0 encOuts).1
           else (dec d0 h0 encOuts).1) := by
        split
        · exact normSlice_rect B F _ (hdec d0 h0)
        · exact hdec d0 h0
      split
      · exact ih _ _ _ (writeSlice_rect B m F t outs _ ho hout)
      · split
        · exact writeSlice_rect B m F t outs _ ho hout
        · exact ih _ _ _ (writeSlice_rect B m F t outs _ ho hout)

/-- C3 (amended): the decoder unrolling loop runs over timestep indices 0
to the INPUT sequence length - 1 (not the target length), invoking the
decoder at most once per input timestep; OutputSequence always has exactly
the target batch's shape; and when the input sequence is no longer than
the target (in particular when the two lengths are equal) the batch
succeeds, so every produced output can be diffed timestep-by-timestep
against the target without reshaping.  When the input is strictly longer
than the target the run instead dies with an index error (see the
counterexample). -/
theorem output_shape_and_loop_bound
    (B m F n : ℕ)
    (htb : Rect3 B m F data.2)
    (hn : (data.1.headD []).length = n)
    (hnm : n ≤ m) (hm : 0 < m)
    (hdec : ∀ inp hh eo, RectSlice B F ((decoderF st.decQ) inp hh eo).1)
    (hg : (!ab && opts.isSome) = false) :
    shape3 (loss_batch encoderF decoderF backwardF data st opts criterion
        rng i tfRatio ua nq ab).outSeq = shape3 data.2 ∧
    (loss_batch encoderF decoderF backwardF data st opts criterion
        rng i tfRatio ua nq ab).decInputs.length ≤ n ∧
    ∃ v, (loss_batch encoderF decoderF backwardF data st opts criterion
        rng i tfRatio ua nq ab).result = Except.ok v := by
  have htc : tsliceE data.2 0 = Except.ok (sliceAtD data.2 0) :=
    tsliceE_ok_of_rect B m F data.2 0 htb hm
  have hz : Rect3 B m F (zeros3 data.2) := zeros3_rect B m F data.2 htb
  have hrun : (lbRun encoderF decoderF data st rng i tfRatio ua nq).err = none := by
    simp only [lbRun, htc]
    apply unroll_err_none
    intro t ht
    rw [hn] at ht
    exact ⟨_, tsliceE_ok_of_rect B m F data.2 t htb
      (lt_of_lt_of_le (List.mem_range.mp ht) hnm)⟩
  have hrect : Rect3 B m F (lbRun encoderF decoderF data st rng i tfRatio ua nq).outputs := by
    simp only [lbRun, htc]
    exact unroll_rect _ _ _ nq data.2 _ B m F (fun inp hh => hdec inp hh _)
      _ _ _ _ hz
  refine ⟨?_, ?_, ?_⟩
  · rw [lb_outSeq encoderF decoderF backwardF data st opts criterion rng i
        tfRatio ua nq ab hg]
    rw [rect3_shape B m F _ hrect, rect3_shape B m F _ htb]
  · rw [lb_decInputs encoderF decoderF backwardF data st opts criterion rng i
        tfRatio ua nq ab hg]
    simp only [lbRun, htc]
    calc (unroll (decoderF st.decQ) _ _ nq data.2 _
            (List.range (data.1.headD []).length) _ _ _).decInputs.length
        ≤ (List.range (data.1.headD []).length).length :=
          unroll_len _ _ _ nq data.2 _ _ _ _ _
      _ = n := by rw [List.length_range, hn]
  · cases hab : ab with
    | false =>
      exact ⟨_, lb_result_per encoderF decoderF backwardF data st opts
        criterion rng i tfRatio ua nq false (hab ▸ hg) rfl hrun⟩
    | true =>
      exact ⟨_, lb_result_avg encoderF decoderF backwardF data st opts
        criterion rng i tfRatio ua nq true (hab ▸ hg) rfl hrun⟩

/-- Error form of a failed run of loss_batch past the guard. -/
lemma lb_result_err (e : Err) (hg : (!ab && opts.isSome) = false)
    (hrun : (lbRun encoderF decoderF data st rng i tfRatio ua nq).err = some e) :
    (loss_batch encoderF decoderF backwardF data st opts criterion rng i
        tfRatio ua nq ab).result = Except.error e := by
  unfold lbRun at hrun
  unfold loss_batch
  cases htc : tsliceE data.2 0 with
  | error e2 =>
    simp only [htc] at hrun ⊢
    injection hrun with hrun
    rw [hrun]
  | ok s0 =>
    simp only [htc] at hrun ⊢
    simp only [hg, Bool.false_eq_true, if_false]
    simp only [hrun]

/-- Counterexample to C3 as frozen: a conversion batch whose input has two
timesteps and whose target has one timestep does not unroll over the
target length.  The loop is driven by the input length and dies reading
target_batch[:, 1, :] (line 88) with an index error, so no output can be
diffed against the target at all — contradicting the claim for batches
where input and target sequLengths differ. -/
theorem unroll_over_input_length_cex :
    (loss_batch (fun (_ : Unit) (_ : Seq3) => ((), ()))
        (fun (_ : Unit) (_ : Slice) (_ : Unit) (_ : Option Unit) => ([([1] : Vec)], ()))
        (fun _ p q => (p, q)) ([[[1], [1]]], [[[1]]]) ⟨(), (), (), ()⟩ none
        (fun _ _ => 0) (fun _ => 1/2) 0 0 false false true).result
      = Except.error Err.indexError := by
  apply lb_result_err (fun (_ : Unit) (_ : Seq3) => ((), ()))
      (fun (_ : Unit) (_ : Slice) (_ : Unit) (_ : Option Unit) => ([([1] : Vec)], ()))
      (fun _ p q => (p, q)) ([[[1], [1]]], [[[1]]]) ⟨(), (), (), ()⟩ none
      (fun _ _ => 0) (fun _ => 1/2) 0 0 false false true Err.indexError rfl
  rw [show lbRun (P := Unit) (Q := Unit) (S := Unit) (T := Unit)
        (fun (_ : Unit) (_ : Seq3) => ((), ()))
        (fun (_ : Unit) (_ : Slice) (_ : Unit) (_ : Option Unit) => ([([1] : Vec)], ()))
        ([[[1], [1]]], [[[1]]]) ⟨(), (), (), ()⟩ (fun _ => 1/2) 0 0 false false
      = unroll (fun (_ : Slice) (_ : Unit) (_ : Option Unit) => ([([1] : Vec)], ()))
          none (decide ((1 : ℝ)/2 < 0)) false [[[(1 : ℝ)]]] [[(0 : ℝ)]]
          [0, 1] [[(1 : ℝ)]] () (zeros3 [[[(1 : ℝ)]]]) from rfl]
  rw [show decide ((1 : ℝ)/2 < 0) = false from decide_eq_false (by norm_num)]
  have htc0 : tsliceE [[[(1 : ℝ)]]] 0 = Except.ok [[(1 : ℝ)]] := rfl
  have htc1 : tsliceE [[[(1 : ℝ)]]] 1 = Except.error Err.indexError := rfl
  simp only [unroll, htc0, htc1, Bool.false_eq_true, if_false, detach]
  rw [if_neg]
  simp

/-- Witness for the amended C3 at a concrete prediction batch with equal
input and target lengths. -/
theorem output_shape_and_loop_bound_witness :
    shape3 (loss_batch (fun (_ : Unit) (_ : Seq3) => ((), ()))
        (fun (_ : Unit) (_ : Slice) (_ : Unit) (_ : Option Unit) => ([([1] : Vec)], ()))
        (fun _ p q => (p, q)) ([[[1]]], [[[1]]]) ⟨(), (), (), ()⟩ none
        (fun _ _ => 0) (fun _ => 1/2) 0 0 false false true).outSeq
      = shape3 [[[1]]] :=
  (output_shape_and_loop_bound (fun (_ : Unit) (_ : Seq3) => ((), ()))
      (fun (_ : Unit) (_ : Slice) (_ : Unit) (_ : Option Unit) => ([([1] : Vec)], ()))
      (fun _ p q => (p, q)) ([[[1]]], [[[1]]]) ⟨(), (), (), ()⟩ none
      (fun _ _ => 0) (fun _ => 1/2) 0 0 false false true 1 1 1 1
      (by constructor
          · rfl
          · intro row hrow
            simp only [List.mem_singleton] at hrow
            subst hrow
            refine ⟨rfl, ?_⟩
            intro v hv
            simp only [List.mem_singleton] at hv
            subst hv
            rfl)
      rfl le_rfl one_pos
      (by intro inp hh eo
          exact ⟨rfl, by
            intro v hv
            simp only [List.mem_singleton] at hv
            subst hv
            rfl⟩)
      rfl).1

/-- Writing a slice at position t leaves every other time position
unchanged. -/
lemma sliceAtD_writeSlice_ne (x : Seq3) (s : Slice) (t q : ℕ)
    (hlen : s.length = x.length) (hne : q ≠ t) :
    sliceAtD (writeSlice x t s) q = sliceAtD x q := by
  induction x generalizing s with
  | nil => rfl
  | cons row rows ih =>
    cases s with
    | nil => simp at hlen
    | cons v vs =>
      show ((row.set t v).getD q []) :: sliceAtD (writeSlice rows t vs) q
          = (row.getD q []) :: sliceAtD rows q
      rw [ih vs (by simpa using hlen)]
      rw [List.getD_eq_getElem?_getD, List.getD_eq_getElem?_getD,
        List.getElem?_set_ne (Ne.symm hne)]

/-- Writing a slice at a valid position t makes position t read back
exactly that slice. -/
lemma sliceAtD_writeSlice_eq (x : Seq3) (s : Slice) (t : ℕ)
    (hlen : s.length = x.length) (hrow : ∀ row ∈ x, t < row.length) :
    sliceAtD (writeSlice x t s) t = s := by
  induction x generalizing s with
  | nil =>
    cases s with
    | nil => rfl
    | cons v vs => simp at hlen
  | cons row rows ih =>
    cases s with
    | nil => simp at hlen
    | cons v vs =>
      show ((row.set t v).getD t []) :: sliceAtD (writeSlice rows t vs) t = v :: vs
      rw [ih vs (by simpa using hlen)
        (fun r hr => hrow r (List.mem_cons_of_mem row hr))]
      rw [List.getD_eq_getElem?_getD,
        List.getElem?_set_eq_of_lt v (hrow row (List.mem_cons_self row rows))]
      rfl

/-- Elements of a chunk are elements of the chunked tensor. -/
lemma mem_toChunks4_subset (xs : List ℝ) (c : List ℝ) (hc : c ∈ toChunks4 xs)
    (x : ℝ) (hx : x ∈ c) : x ∈ xs := by
  rw [← toChunks4_flatten xs]
  exact List.mem_flatten.mpr ⟨c, hc, hx⟩

/-- Normalizing an all-zero group leaves it untouched (the eps clamp of
F.normalize makes the denominator eps, and 0 / eps = 0). -/
lemma normalizeChunk_zero (c : List ℝ) (h : ∀ x ∈ c, x = 0) :
    normalizeChunk c = c := by
  unfold normalizeChunk
  have hc : ∀ x ∈ c, x / max (l2norm c) normEps = id x := by
    intro x hx
    rw [h x hx]
    simp
  rw [List.map_congr_left hc, List.map_id]

/-- The quaternion renormalization of lines 95-96 fixes all-zero tensors. -/
lemma normalizeQuat_zero (xs : List ℝ) (h : ∀ x ∈ xs, x = 0) :
    normalizeQuat xs = xs := by
  unfold normalizeQuat
  have hcs : ∀ c ∈ toChunks4 xs, normalizeChunk c = id c := fun c hc =>
    normalizeChunk_zero c (fun x hx => h x (mem_toChunks4_subset xs c hc x hx))
  rw [List.map_congr_left hcs, List.map_id, toChunks4_flatten]

/-- Restoring the flat view of a slice into its own shape is the identity. -/
lemma unflattenLike_flatten (s : Slice) : unflattenLike s (flatten2 s) = s := by
  induction s with
  | nil => rfl
  | cons r rs ih =>
    show (flatten2 (r :: rs)).take r.length
        :: unflattenLike rs ((flatten2 (r :: rs)).drop r.length) = r :: rs
    rw [show flatten2 (r :: rs) = r ++ flatten2 rs from rfl]
    rw [List.take_left, List.drop_left]
    rw [show unflattenLike rs (flatten2 rs) = rs from ih]

/-- Lines 92-96 fix an all-zero step output. -/
lemma normSlice_zero_slice (s : Slice) (h : ∀ v ∈ s, ∀ x ∈ v, x = 0) :
    normSlice s = s := by
  unfold normSlice
  rw [normalizeQuat_zero _ (by
    intro x hx
    rw [flatten2, List.mem_flatten] at hx
    obtain ⟨v, hv, hxv⟩ := hx
    exact h v hv x hxv)]
  exact unflattenLike_flatten s

/-- zeros_like slices are all-zero. -/
lemma zerosLike_all_zero (s : Slice) : ∀ v ∈ zerosLike s, ∀ x ∈ v, x = 0 := by
  intro v hv x hx
  rw [zerosLike, List.mem_map] at hv
  obtain ⟨v0, _, hv⟩ := hv
  subst hv
  rw [List.mem_map] at hx
  obtain ⟨x0, _, hx⟩ := hx
  exact hx.symm

/-- zeros_like preserves the row count. -/
lemma zerosLike_length (s : Slice) : (zerosLike s).length = s.length := by
  rw [zerosLike, List.length_map]

/-- zeros_like of a well-shaped slice is the all-zero rectangle. -/
lemma zerosLike_replicate (B F : ℕ) (s : Slice) (h : RectSlice B F s) :
    zerosLike s = List.replicate B (List.replicate F 0) := by
  rw [List.eq_replicate_iff]
  constructor
  · rw [zerosLike_length]
    exact h.1
  · intro v hv
    rw [zerosLike, List.mem_map] at hv
    obtain ⟨v0, hv0, hv⟩ := hv
    subst hv
    rw [List.map_const', h.2 v0 hv0]

/-- Lines 92-96 preserve the row count. -/
lemma normSlice_length (s : Slice) : (normSlice s).length = s.length := by
  have h := normSlice_shape s
  have := congrArg List.length h
  simpa [sliceShape] using this

/-- A valid time slice of a well-shaped tensor is well-shaped. -/
lemma sliceAtD_rect (B m F : ℕ) (x : Seq3) (h : Rect3 B m F x) (t : ℕ)
    (ht : t < m) : RectSlice B F (sliceAtD x t) := by
  constructor
  · rw [sliceAtD, List.length_map]
    exact h.1
  · intro v hv
    rw [sliceAtD, List.mem_map] at hv
    obtain ⟨row, hrow, hv⟩ := hv
    subst hv
    obtain ⟨hrl, hrv⟩ := h.2 row hrow
    rw [List.getD_eq_getElem?_getD, List.getElem?_eq_getElem (by omega)]
    exact hrv _ (List.getElem_mem _)

/-- Any valid time slice of the zero-initialized OutputSequence is the
all-zero rectangle. -/
lemma sliceAtD_zeros3 (B m F : ℕ) (x : Seq3) (h : Rect3 B m F x) (t : ℕ)
    (ht : t < m) :
    sliceAtD (zeros3 x) t = List.replicate B (List.replicate F 0) := by
  rw [List.eq_replicate_iff]
  constructor
  · rw [sliceAtD, List.length_map, zeros3, List.length_map]
    exact h.1
  · intro v hv
    rw [sliceAtD, List.mem_map] at hv
    obtain ⟨row, hrow, hv⟩ := hv
    subst hv
    rw [zeros3, List.mem_map] at hrow
    obtain ⟨row0, hrow0, hrow⟩ := hrow
    subst hrow
    obtain ⟨hrl, hrv⟩ := h.2 row0 hrow0
    rw [List.getD_eq_getElem?_getD, List.getElem?_map,
      List.getElem?_eq_getElem (by rw [hrl]; exact ht)]
    simp only [Option.map_some', Option.getD_some]
    rw [List.map_const', hrv _ (List.getElem_mem _)]

/-- Shifting the self-feeding trajectory by one step. -/
lemma traj_shift {H E : Type} (dec : Slice → H → Option E → Slice × H)
    (encOuts : Option E) (normQ : Bool) (d0 : Slice) (h0 : H) :
    ∀ j : ℕ,
      traj dec encOuts normQ
        (detach (if normQ = true then normSlice (dec d0 h0 encOuts).1
                 else (dec d0 h0 encOuts).1))
        (dec d0 h0 encOuts).2 j
      = traj dec encOuts normQ d0 h0 (j + 1) := by
  intro j
  induction j with
  | zero => rfl
  | succ j ih =>
    show (let p := traj dec encOuts normQ
            (detach (if normQ = true then normSlice (dec d0 h0 encOuts).1
                     else (dec d0 h0 encOuts).1))
            (dec d0 h0 encOuts).2 j
          let o := dec p.1 p.2 encOuts
          (detach (if normQ = true then normSlice o.1 else o.1), o.2))
        = traj dec encOuts normQ d0 h0 (j + 1 + 1)
    rw [ih]
    rfl

/-- Shifting the raw decoder outputs of the trajectory by one step. -/
lemma rawOut_shift {H E : Type} (dec : Slice → H → Option E → Slice × H)
    (encOuts : Option E) (normQ : Bool) (d0 : Slice) (h0 : H) (j : ℕ) :
    rawOut dec encOuts normQ
        (detach (if normQ = true then normSlice (dec d0 h0 encOuts).1
                 else (dec d0 h0 encOuts).1))
        (dec d0 h0 encOuts).2 j
      = rawOut dec encOuts normQ d0 h0 (j + 1) := by
  unfold rawOut
  rw [traj_shift]

/-- Core of the EOS early-stop property: starting anywhere in the index
range, if the self-feeding trajectory first hits the EOS sentinel at its
k-th decoder output (k within both the remaining range and the target
length), the loop ends cleanly there: the decoder runs exactly k+1 times,
positions strictly beyond the stop index keep their initial contents, and
the stop position holds the (re-normalized) EOS value. -/
lemma unroll_eos_run {H E : Type} (dec : Slice → H → Option E → Slice × H)
    (encOuts : Option E) (normQ : Bool) (tb : Seq3) (EOS : Slice) (B m F : ℕ)
    (htb : Rect3 B m F tb)
    (hdec : ∀ inp hh, RectSlice B F (dec inp hh encOuts).1) :
    ∀ (k s n : ℕ) (d0 : Slice) (h0 : H) (outs : Seq3),
      Rect3 B m F outs →
      k < n → s + k < m →
      (∀ j, j < k → rawOut dec encOuts normQ d0 h0 j ≠ EOS) →
      rawOut dec encOuts normQ d0 h0 k = EOS →
      (unroll dec encOuts false normQ tb EOS (List.range' s n) d0 h0 outs).err
          = none ∧
      (unroll dec encOuts false normQ tb EOS (List.range' s n) d0 h0
          outs).decInputs.length = k + 1 ∧
      (∀ q, s + k < q →
        sliceAtD (unroll dec encOuts false normQ tb EOS (List.range' s n) d0 h0
            outs).outputs q = sliceAtD outs q) ∧
      sliceAtD (unroll dec encOuts false normQ tb EOS (List.range' s n) d0 h0
          outs).outputs (s + k)
        = (if normQ = true then normSlice EOS else EOS) := by
  intro k
  induction k with
  | zero =>
    intro s n d0 h0 outs ho hkn hsm hpre hk
    obtain ⟨n', rfl⟩ : ∃ n', n = n' + 1 := ⟨n - 1, by omega⟩
    rw [List.range'_succ]
    have htcs : tsliceE tb s = Except.ok (sliceAtD tb s) :=
      tsliceE_ok_of_rect B m F tb s htb (by omega)
    have hEOS1 : (dec d0 h0 encOuts).1 = EOS := hk
    have houtRect : RectSlice B F
        (if normQ = true then normSlice (dec d0 h0 encOuts).1
         else (dec d0 h0 encOuts).1) := by
      split
      · exact normSlice_rect B F _ (hdec d0 h0)
      · exact hdec d0 h0
    simp only [unroll, htcs, Bool.false_eq_true, if_false]
    rw [if_pos hEOS1]
    refine ⟨rfl, rfl, ?_, ?_⟩
    · intro q hq
      exact sliceAtD_writeSlice_ne outs _ s q
        (by rw [houtRect.1, ho.1]) (by omega)
    · have h1 := sliceAtD_writeSlice_eq outs
        (if normQ = true then normSlice (dec d0 h0 encOuts).1
         else (dec d0 h0 encOuts).1) s
        (by rw [houtRect.1, ho.1])
        (fun row hrow => by rw [(ho.2 row hrow).1]; omega)
      rw [Nat.add_zero, h1, hEOS1]
  | succ k ih =>
    intro s n d0 h0 outs ho hkn hsm hpre hk
    obtain ⟨n', rfl⟩ : ∃ n', n = n' + 1 := ⟨n - 1, by omega⟩
    rw [List.range'_succ]
    have htcs : tsliceE tb s = Except.ok (sliceAtD tb s) :=
      tsliceE_ok_of_rect B m F tb s htb (by omega)
    have hne : (dec d0 h0 encOuts).1 ≠ EOS := hpre 0 (Nat.succ_pos k)
    have houtRect : RectSlice B F
        (if normQ = true then normSlice (dec d0 h0 encOuts).1
         else (dec d0 h0 encOuts).1) := by
      split
      · exact normSlice_rect B F _ (hdec d0 h0)
      · exact hdec d0 h0
    have hrect2 : Rect3 B m F (writeSlice outs s
        (if normQ = true then normSlice (dec d0 h0 encOuts).1
         else (dec d0 h0 encOuts).1)) :=
      writeSlice_rect B m F s outs _ ho houtRect
    have hpre2 : ∀ j, j < k →
        rawOut dec encOuts normQ
          (detach (if normQ = true then normSlice (dec d0 h0 encOuts).1
                   else (dec d0 h0 encOuts).1))
          (dec d0 h0 encOuts).2 j ≠ EOS := by
      intro j hj
      rw [rawOut_shift]
      exact hpre (j + 1) (by omega)
    have hk2 : rawOut dec encOuts normQ
        (detach (if normQ = true then normSlice (dec d0 h0 encOuts).1
                 else (dec d0 h0 encOuts).1))
        (dec d0 h0 encOuts).2 k = EOS := by
      rw [rawOut_shift]
      exact hk
    obtain ⟨e1, e2, e3, e4⟩ := ih (s + 1) n'
      (detach (if normQ = true then normSlice (dec d0 h0 encOuts).1
               else (dec d0 h0 encOuts).1))
      (dec d0 h0 encOuts).2
      (writeSlice outs s
        (if normQ = true then normSlice (dec d0 h0 encOuts).1
         else (dec d0 h0 encOuts).1))
      hrect2 (by omega) (by omega) hpre2 hk2
    simp only [unroll, htcs, Bool.false_eq_true, if_false]
    rw [if_neg hne]
    refine ⟨e1, ?_, ?_, ?_⟩
    · simp only [List.length_cons, e2]
    · intro q hq
      rw [e3 q (by omega)]
      exact sliceAtD_writeSlice_ne outs _ s q
        (by rw [houtRect.1, ho.1]) (by omega)
    · rw [show s + (k + 1) = s + 1 + k by omega]
      exact e4

/-- C4: in non-teacher-forcing mode, if the decoder's raw step output
first equals the all-zero EOS sentinel at timestep k (k within the input
range and the target length), the unrolling loop terminates at k: the
decoder is invoked exactly k+1 times — never after k — the batch still
returns a loss value, and every OutputSequence position at timesteps >= k
is all zero (position k itself is written with the re-normalized all-zero
output, which is all zero; later positions keep their zero
initialization). -/
theorem eos_early_stop
    (B m F n k : ℕ)
    (htb : Rect3 B m F data.2)
    (hn : (data.1.headD []).length = n)
    (hkn : k < n) (hkm : k < m)
    (hr : tfRatio ≤ rng i)
    (hg : (!ab && opts.isSome) = false)
    (hdec : ∀ inp hh eo, RectSlice B F ((decoderF st.decQ) inp hh eo).1)
    (hpre : ∀ j, j < k →
      rawOut (decoderF st.decQ)
        (if ua = true then some (encoderF st.encP data.1.transpose).1 else none)
        nq (onesLike (sliceAtD data.2 0)) (encoderF st.encP data.1.transpose).2 j
        ≠ zerosLike (sliceAtD data.2 0))
    (hk : rawOut (decoderF st.decQ)
        (if ua = true then some (encoderF st.encP data.1.transpose).1 else none)
        nq (onesLike (sliceAtD data.2 0)) (encoderF st.encP data.1.transpose).2 k
        = zerosLike (sliceAtD data.2 0)) :
    (∃ v, (loss_batch encoderF decoderF backwardF data st opts criterion rng i
        tfRatio ua nq ab).result = Except.ok v) ∧
    (loss_batch encoderF decoderF backwardF data st opts criterion rng i
        tfRatio ua nq ab).decInputs.length = k + 1 ∧
    (∀ t, k ≤ t → t < m →
      sliceAtD (loss_batch encoderF decoderF backwardF data st opts criterion
          rng i tfRatio ua nq ab).outSeq t
        = List.replicate B (List.replicate F 0)) := by
  have hm : 0 < m := lt_of_le_of_lt (Nat.zero_le k) hkm
  have htc : tsliceE data.2 0 = Except.ok (sliceAtD data.2 0) :=
    tsliceE_ok_of_rect B m F data.2 0 htb hm
  have huse : decide (rng i < tfRatio) = false :=
    decide_eq_false (not_lt.mpr hr)
  have hs0rect : RectSlice B F (sliceAtD data.2 0) :=
    sliceAtD_rect B m F data.2 htb 0 hm
  obtain ⟨e1, e2, e3, e4⟩ := unroll_eos_run (decoderF st.decQ)
    (if ua = true then some (encoderF st.encP data.1.transpose).1 else none)
    nq data.2 (zerosLike (sliceAtD data.2 0)) B m F htb
    (fun inp hh => hdec inp hh _)
    k 0 n (onesLike (sliceAtD data.2 0)) (encoderF st.encP data.1.transpose).2
    (zeros3 data.2) (zeros3_rect B m F data.2 htb) hkn
    (by omega) hpre hk
  have hlb : lbRun encoderF decoderF data st rng i tfRatio ua nq
      = unroll (decoderF st.decQ)
          (if ua = true then some (encoderF st.encP data.1.transpose).1 else none)
          false nq data.2 (zerosLike (sliceAtD data.2 0)) (List.range' 0 n)
          (onesLike (sliceAtD data.2 0)) (encoderF st.encP data.1.transpose).2
          (zeros3 data.2) := by
    simp only [lbRun, htc, huse]
    rw [hn, List.range_eq_range']
  refine ⟨?_, ?_, ?_⟩
  · have hrun : (lbRun encoderF decoderF data st rng i tfRatio ua nq).err
        = none := by
      rw [hlb]
      exact e1
    cases hab : ab with
    | false =>
      exact ⟨_, lb_result_per encoderF decoderF backwardF data st opts
        criterion rng i tfRatio ua nq false (hab ▸ hg) rfl hrun⟩
    | true =>
      exact ⟨_, lb_result_avg encoderF decoderF backwardF data st opts
        criterion rng i tfRatio ua nq true (hab ▸ hg) rfl hrun⟩
  · rw [lb_decInputs encoderF decoderF backwardF data st opts criterion rng i
        tfRatio ua nq ab hg, hlb]
    exact e2
  · intro t hkt htm
    rw [lb_outSeq encoderF decoderF backwardF data st opts criterion rng i
        tfRatio ua nq ab hg, hlb]
    rcases eq_or_lt_of_le hkt with rfl | hlt
    · have h4 := e4
      rw [Nat.zero_add] at h4
      rw [h4]
      have hzrep : zerosLike (sliceAtD data.2 0)
          = List.replicate B (List.replicate F 0) :=
        zerosLike_replicate B F _ hs0rect
      split
      · rw [normSlice_zero_slice _ (zerosLike_all_zero _), hzrep]
      · rw [hzrep]
    · rw [e3 t (by omega)]
      exact sliceAtD_zeros3 B m F data.2 htb t htm

/-- Witness for C4: a decoder stub that counts its invocations in the
hidden state and emits the all-zero output at its second call (k = 1) on a
3-step batch. -/
theorem eos_early_stop_witness :
    (loss_batch (fun (_ : Unit) (_ : Seq3) => ((), (0 : ℕ)))
        (fun (_ : Unit) (_ : Slice) (h : ℕ) (_ : Option Unit) =>
          ((if h = 1 then [[(0 : ℝ)]] else [[(1 : ℝ)]]), h + 1))
        (fun _ p q => (p, q)) ([[[9], [9], [9]]], [[[7], [7], [7]]])
        ⟨(), (), (), ()⟩ none (fun _ _ => 0) (fun _ => 1/2) 0 0 false false
        true).decInputs.length = 1 + 1 :=
  (eos_early_stop (fun (_ : Unit) (_ : Seq3) => ((), (0 : ℕ)))
      (fun (_ : Unit) (_ : Slice) (h : ℕ) (_ : Option Unit) =>
        ((if h = 1 then [[(0 : ℝ)]] else [[(1 : ℝ)]]), h + 1))
      (fun _ p q => (p, q)) ([[[9], [9], [9]]], [[[7], [7], [7]]])
      ⟨(), (), (), ()⟩ none (fun _ _ => 0) (fun _ => 1/2) 0 0 false false true
      1 3 1 3 1
      (by refine ⟨rfl, ?_⟩
          intro row hrow
          simp only [List.mem_singleton] at hrow
          subst hrow
          refine ⟨rfl, ?_⟩
          intro v hv
          fin_cases hv <;> rfl)
      rfl (by omega) (by omega) (by norm_num) rfl
      (by intro inp hh eo
          dsimp only
          split <;>
            exact ⟨rfl, by
              intro v hv
              simp only [List.mem_singleton] at hv
              subst hv
              rfl⟩)
      (by intro j hj
          have hj0 : j = 0 := by omega
          subst hj0
          simp [rawOut, traj, sliceAtD, onesLike, zerosLike])
      (by simp [rawOut, traj, sliceAtD, onesLike, zerosLike, detach])).2.1

/-- Element pairing commutes with flattening when the paired rows have
equal lengths row by row. -/
lemma zipWith_flatten_decomp (f : ℝ → ℝ → ℝ) (L : ℕ) :
    ∀ (os ts : List (List ℝ)), os.length = ts.length →
      (∀ o ∈ os, o.length = L) → (∀ t ∈ ts, t.length = L) →
      List.zipWith f os.flatten ts.flatten
        = (List.zipWith (List.zipWith f) os ts).flatten := by
  intro os
  induction os with
  | nil =>
    intro ts h ho ht
    have : ts = [] := List.length_eq_zero.mp h.symm
    subst this
    rfl
  | cons o os ih =>
    intro ts h ho ht
    cases ts with
    | nil => simp at h
    | cons t ts =>
      simp only [List.flatten_cons, List.zipWith_cons_cons]
      rw [List.zipWith_append f _ _ _ _ (by
        rw [ho o (List.mem_cons_self o os), ht t (List.mem_cons_self t ts)])]
      rw [ih ts (by simpa using h)
        (fun x hx => ho x (List.mem_cons_of_mem o hx))
        (fun x hx => ht x (List.mem_cons_of_mem t hx))]

/-- Length of a flat concatenation of constant-length rows. -/
lemma flatten_length_const (L : ℕ) :
    ∀ (os : List (List ℝ)), (∀ o ∈ os, o.length = L) →
      os.flatten.length = os.length * L := by
  intro os
  induction os with
  | nil => intro ho; simp
  | cons o os ih =>
    intro ho
    rw [List.flatten_cons, List.length_append,
      ho o (List.mem_cons_self o os),
      ih (fun x hx => ho x (List.mem_cons_of_mem o hx)),
      List.length_cons]
    ring

/-- Sum of constant-denominator divisions. -/
lemma sum_map_div (c : ℝ) :
    ∀ (l : List ℝ), (l.map (fun x => x / c)).sum = l.sum / c := by
  intro l
  induction l with
  | nil => simp
  | cons x l ih =>
    rw [List.map_cons, List.sum_cons, List.sum_cons, ih, add_div]

/-- Sum of the per-sample means, as the total pointwise sum over a common
sample size L. -/
lemma zip_mean_sum (f : ℝ → ℝ → ℝ) (L : ℕ) :
    ∀ (os ts : List (List ℝ)), os.length = ts.length →
      (∀ o ∈ os, o.length = L) →
      ((os.zip ts).map (fun bt => meanPointwise f bt.1 bt.2)).sum
        = ((List.zipWith (List.zipWith f) os ts).map List.sum).sum / (L : ℝ) := by
  intro os
  induction os with
  | nil =>
    intro ts h ho
    have : ts = [] := List.length_eq_zero.mp h.symm
    subst this
    simp
  | cons o os ih =>
    intro ts h ho
    cases ts with
    | nil => simp at h
    | cons t ts =>
      simp only [List.zip_cons_cons, List.map_cons, List.sum_cons,
        List.zipWith_cons_cons]
      rw [ih ts (by simpa using h) (fun x hx => ho x (List.mem_cons_of_mem o hx))]
      rw [show meanPointwise f o t
            = (List.zipWith f o t).sum / (L : ℝ) from by
          rw [meanPointwise, ho o (List.mem_cons_self o os)]]
      rw [add_div]

/-- Core consistency fact: the mean-reduced elementwise criterion over the
flattened batch equals the arithmetic mean of the per-sample values of the
same criterion, when all samples have a common element count. -/
lemma mean_flatten_decomp (f : ℝ → ℝ → ℝ) (L : ℕ)
    (os ts : List (List ℝ)) (h : os.length = ts.length)
    (ho : ∀ o ∈ os, o.length = L) (ht : ∀ t ∈ ts, t.length = L) :
    meanPointwise f os.flatten ts.flatten
      = ((os.zip ts).map (fun bt => meanPointwise f bt.1 bt.2)).sum
        / (((os.zip ts).map (fun bt => meanPointwise f bt.1 bt.2)).length : ℝ) := by
  rw [meanPointwise, zipWith_flatten_decomp f L os ts h ho ht, List.sum_flatten,
    flatten_length_const L os ho, zip_mean_sum f L os ts h ho,
    List.length_map, List.length_zip, h, min_self, ← h, div_div]
  rw [Nat.cast_mul, mul_comm]

/-- C6: for a mean-reduced elementwise criterion and a fixed model state,
the scalar that loss_batch returns with average_batch = true equals the
arithmetic mean of the per-sample loss list that loss_batch with
average_batch = false returns for the identical batch, model state and
random draw (evaluation mode, where average_batch = false is legal). -/
theorem batch_sample_loss_consistency
    (f : ℝ → ℝ → ℝ) (B m F n : ℕ)
    (hcrit : criterion = meanPointwise f)
    (hop : opts = none)
    (htb : Rect3 B m F data.2)
    (hn : (data.1.headD []).length = n) (hnm : n ≤ m) (hm : 0 < m)
    (hdec : ∀ inp hh eo, RectSlice B F ((decoderF st.decQ) inp hh eo).1) :
    ∃ (sc : ℝ) (ls : List ℝ),
      (loss_batch encoderF decoderF backwardF data st opts criterion rng i
          tfRatio ua nq true).result = Except.ok (Sum.inl sc) ∧
      (loss_batch encoderF decoderF backwardF data st opts criterion rng i
          tfRatio ua nq false).result = Except.ok (Sum.inr ls) ∧
      sc = ls.sum / (ls.length : ℝ) := by
  subst hcrit hop
  have htc : tsliceE data.2 0 = Except.ok (sliceAtD data.2 0) :=
    tsliceE_ok_of_rect B m F data.2 0 htb hm
  have hrun : (lbRun encoderF decoderF data st rng i tfRatio ua nq).err = none := by
    simp only [lbRun, htc]
    apply unroll_err_none
    intro t ht
    rw [hn] at ht
    exact ⟨_, tsliceE_ok_of_rect B m F data.2 t htb
      (lt_of_lt_of_le (List.mem_range.mp ht) hnm)⟩
  have hrect : Rect3 B m F
      (lbRun encoderF decoderF data st rng i tfRatio ua nq).outputs := by
    simp only [lbRun, htc]
    exact unroll_rect _ _ _ nq data.2 _ B m F (fun inp hh => hdec inp hh _)
      _ _ _ _ (zeros3_rect B m F data.2 htb)
  refine ⟨_, _, lb_result_avg encoderF decoderF backwardF data st none
      (meanPointwise f) rng i tfRatio ua nq true rfl rfl hrun,
    lb_result_per encoderF decoderF backwardF data st none
      (meanPointwise f) rng i tfRatio ua nq false rfl rfl hrun, ?_⟩
  -- the algebra: flatten3 and per-sample flatten2 regrouped through maps
  set outs := (lbRun encoderF decoderF data st rng i tfRatio ua nq).outputs with houts
  have hosl : ∀ o ∈ outs.map flatten2, o.length = m * F := by
    intro o hoo
    rw [List.mem_map] at hoo
    obtain ⟨row, hrow, hoo⟩ := hoo
    subst hoo
    obtain ⟨hrl, hrv⟩ := hrect.2 row hrow
    calc (flatten2 row).length = row.length * F := flatten_length_const F row hrv
      _ = m * F := by rw [hrl]
  have htsl : ∀ t ∈ data.2.map flatten2, t.length = m * F := by
    intro t htt
    rw [List.mem_map] at htt
    obtain ⟨row, hrow, htt⟩ := htt
    subst htt
    obtain ⟨hrl, hrv⟩ := htb.2 row hrow
    calc (flatten2 row).length = row.length * F := flatten_length_const F row hrv
      _ = m * F := by rw [hrl]
  have hlen : (outs.map flatten2).length = (data.2.map flatten2).length := by
    rw [List.length_map, List.length_map, hrect.1, htb.1]
  have hmain := mean_flatten_decomp f (m * F) (outs.map flatten2)
    (data.2.map flatten2) hlen hosl htsl
  rw [show (outs.map flatten2).flatten = flatten3 outs from rfl,
    show (data.2.map flatten2).flatten = flatten3 data.2 from rfl] at hmain
  rw [List.zip_map, List.map_map] at hmain
  rw [show ((fun bt => meanPointwise f bt.1 bt.2) ∘ Prod.map flatten2 flatten2)
        = (fun bt => meanPointwise f (flatten2 bt.1) (flatten2 bt.2)) from by
      funext bt
      rfl] at hmain
  exact hmain

/-- Witness for C6 at a concrete one-sample, one-step batch under the
squared-error criterion. -/
theorem batch_sample_loss_consistency_witness :
    ∃ (sc : ℝ) (ls : List ℝ),
      (loss_batch (fun (_ : Unit) (_ : Seq3) => ((), ()))
          (fun (_ : Unit) (_ : Slice) (_ : Unit) (_ : Option Unit) => ([([5] : Vec)], ()))
          (fun _ p q => (p, q)) ([[[2]]], [[[3]]]) ⟨(), (), (), ()⟩ none
          (meanPointwise (fun a b => (a - b) ^ 2)) (fun _ => 1/2) 0 0 false
          false true).result = Except.ok (Sum.inl sc) ∧
      (loss_batch (fun (_ : Unit) (_ : Seq3) => ((), ()))
          (fun (_ : Unit) (_ : Slice) (_ : Unit) (_ : Option Unit) => ([([5] : Vec)], ()))
          (fun _ p q => (p, q)) ([[[2]]], [[[3]]]) ⟨(), (), (), ()⟩ none
          (meanPointwise (fun a b => (a - b) ^ 2)) (fun _ => 1/2) 0 0 false
          false false).result = Except.ok (Sum.inr ls) ∧
      sc = ls.sum / (ls.length : ℝ) :=
  batch_sample_loss_consistency (fun (_ : Unit) (_ : Seq3) => ((), ()))
      (fun (_ : Unit) (_ : Slice) (_ : Unit) (_ : Option Unit) => ([([5] : Vec)], ()))
      (fun _ p q => (p, q)) ([[[2]]], [[[3]]]) ⟨(), (), (), ()⟩ none
      (meanPointwise (fun a b => (a - b) ^ 2)) (fun _ => 1/2) 0 0 false false
      (fun a b => (a - b) ^ 2) 1 1 1 1 rfl rfl
      (by refine ⟨rfl, ?_⟩
          intro row hrow
          simp only [List.mem_singleton] at hrow
          subst hrow
          refine ⟨rfl, ?_⟩
          intro v hv
          fin_cases hv
          rfl)
      rfl le_rfl one_pos
      (by intro inp hh eo
          refine ⟨rfl, ?_⟩
          intro v hv
          dsimp only at hv
          simp only [List.mem_singleton] at hv
          subst hv
          rfl)

/-- Closed form of the running minimum after appending one value. -/
lemma histMin_append (l : List ℝ) (v : ℝ) :
    histMin (l ++ [v])
      = some (match histMin l with | none => v | some m => min m v) := by
  induction l with
  | nil => rfl
  | cons a l ih =>
    show histMin (a :: (l ++ [v])) = _
    simp only [histMin, ih]
    cases hm : histMin l with
    | none => rfl
    | some m =>
      simp only []
      rw [min_assoc]

/-- The running minimum is attained by a member of the history. -/
lemma histMin_mem : ∀ (l : List ℝ) (m : ℝ), histMin l = some m → m ∈ l := by
  intro l
  induction l with
  | nil => intro m h; cases h
  | cons a l ih =>
    intro m h
    simp only [histMin] at h
    injection h with h
    cases hm : histMin l with
    | none =>
      rw [hm] at h
      have h2 : a = m := h
      exact h2 ▸ List.mem_cons_self a l
    | some m2 =>
      rw [hm] at h
      have h2 : min a m2 = m := h
      rcases le_total a m2 with hle | hle
      · rw [min_eq_left hle] at h2
        exact h2 ▸ List.mem_cons_self a l
      · rw [min_eq_right hle] at h2
        exact List.mem_cons_of_mem a (h2 ▸ ih m2 hm)

/-- Strict improvement over the whole history, phrased via the running
minimum: v is below the minimum iff it is below every member. -/
lemma lt_histMin_iff (v : ℝ) :
    ∀ l : List ℝ, (∀ m, histMin l = some m → v < m) ↔ ∀ x ∈ l, v < x := by
  intro l
  induction l with
  | nil =>
    constructor
    · intro _ x hx
      cases hx
    · intro _ m hm
      cases hm
  | cons a l ih =>
    constructor
    · intro h x hx
      cases hm : histMin l with
      | none =>
        have hl : l = [] := by
          cases l with
          | nil => rfl
          | cons b lb => simp [histMin] at hm
        subst hl
        simp only [List.mem_singleton] at hx
        subst hx
        exact h x (by simp [histMin])
      | some m2 =>
        have hmain := h (min a m2) (by simp [histMin, hm])
        rcases List.mem_cons.mp hx with hx1 | hx1
        · rw [hx1]
          exact lt_of_lt_of_le hmain (min_le_left a m2)
        · exact ih.mp (fun m3 hm3 => by
            rw [hm] at hm3
            injection hm3 with hm3
            exact hm3 ▸ lt_of_lt_of_le hmain (min_le_right a m2)) x hx1
    · intro h m hm
      have := histMin_mem (a :: l) m hm
      exact h m this

/-- val0 at a position inside the existing prefix. -/
lemma val0_append_lt (vl pre : List (List ℝ)) (e : ℕ) (he : e < vl.length) :
    val0 (vl ++ pre) e = val0 vl e := by
  rw [val0, val0, List.getD_eq_getElem?_getD, List.getD_eq_getElem?_getD,
    List.getElem?_append_left he]

/-- val0 at the first appended position. -/
lemma val0_append_boundary (vl : List (List ℝ)) (vv : List ℝ)
    (pre : List (List ℝ)) :
    val0 (vl ++ vv :: pre) vl.length = vv.headD 0 := by
  rw [val0, List.getD_eq_getElem?_getD,
    List.getElem?_append_right (le_refl vl.length)]
  simp

/-- Membership in the head history as indexed access. -/
lemma heads_mem_iff (vl : List (List ℝ)) (x : ℝ) :
    x ∈ vl.map (fun l => l.headD 0) ↔ ∃ e, e < vl.length ∧ x = val0 vl e := by
  rw [List.mem_iff_getElem]
  constructor
  · rintro ⟨j, hj, hx⟩
    rw [List.getElem_map] at hx
    refine ⟨j, by simpa using hj, ?_⟩
    rw [val0, List.getD_eq_getElem?_getD,
      List.getElem?_eq_getElem (by simpa using hj)]
    exact hx.symm
  · rintro ⟨e, he, hx⟩
    refine ⟨e, by simpa using he, ?_⟩
    rw [List.getElem_map]
    rw [val0, List.getD_eq_getElem?_getD, List.getElem?_eq_getElem he] at hx
    exact hx.symm

/-- The running minimum is a lower bound of the history. -/
lemma histMin_le : ∀ (l : List ℝ) (m : ℝ), histMin l = some m → ∀ x ∈ l, m ≤ x := by
  intro l
  induction l with
  | nil =>
    intro m h
    cases h
  | cons a l ih =>
    intro m h x hx
    simp only [histMin] at h
    injection h with h
    rcases List.mem_cons.mp hx with hx1 | hx1
    · rw [hx1]
      cases hm : histMin l with
      | none =>
        rw [hm] at h
        have h2 : a = m := h
        exact le_of_eq h2.symm
      | some m2 =>
        rw [hm] at h
        have h2 : min a m2 = m := h
        calc m = min a m2 := h2.symm
          _ ≤ a := min_le_left a m2
    · cases hm : histMin l with
      | none =>
        have hl : l = [] := by
          cases l with
          | nil => rfl
          | cons b lb => simp [histMin] at hm
        subst hl
        cases hx1
      | some m2 =>
        rw [hm] at h
        have h2 : min a m2 = m := h
        calc m = min a m2 := h2.symm
          _ ≤ m2 := min_le_right a m2
          _ ≤ x := ih m2 hm x hx1

/-- Master invariant of the epoch loop: a successful fitLoop run extends
the validation log, keeps all recorded checkpoint indices within the log,
never drops a checkpoint entry, and every epoch processed by the run gets
a checkpoint exactly when its criterion-0 mean strictly undercuts every
earlier epoch's. -/
lemma fitLoop_main
    (optims : OptPair P Q S T)
    (validation_criteria : List (List ℝ → List ℝ → ℝ))
    (train_loader val_loader : List (Seq3 × Seq3)) (schedule_rate : ℝ) :
    ∀ (E0 : ℕ) (ρ : ℝ) (stx : TrainState P Q S T) (minv : Option ℝ) (ix : ℕ)
      (ws : List (ℕ × Checkpoint P Q S T)) (vl : List (List ℝ)) (tl : List ℝ)
      (out : FitOutcome P Q S T),
      fitLoop encoderF decoderF backwardF optims criterion validation_criteria
          train_loader val_loader rng ua nq schedule_rate
          E0 ρ stx minv ix ws vl tl = Except.ok out →
      minv = histMin (vl.map (fun l => l.headD 0)) →
      (∀ e c, (e, c) ∈ ws → e < vl.length) →
      (∃ pre, out.valLog = vl ++ pre) ∧
      (∀ e c, (e, c) ∈ out.writes → e < out.valLog.length) ∧
      (∀ e, vl.length ≤ e → e < out.valLog.length →
        ((∃ c, (e, c) ∈ out.writes) ↔
          ∀ e2, e2 < e → val0 out.valLog e < val0 out.valLog e2)) ∧
      (∀ e c, (e, c) ∈ ws → (e, c) ∈ out.writes) ∧
      (∀ e c, (e, c) ∈ out.writes → e < vl.length → (e, c) ∈ ws) := by
  intro E0
  induction E0 with
  | zero =>
    intro ρ stx minv ix ws vl tl out hfit hminv hws
    injection hfit with hfit
    subst hfit
    refine ⟨⟨[], (List.append_nil vl).symm⟩, hws, ?_, fun e c h => h,
      fun e c h _ => h⟩
    intro e he1 he2
    exact absurd he2 (not_lt.mpr he1)
  | succ E0 ih =>
    intro ρ stx minv ix ws vl tl out hfit hminv hws
    have hIMP : ∀ (out : FitOutcome P Q S T) (v0 : ℝ) (tail : List ℝ)
        (st2 : TrainState P Q S T) (i2 : ℕ) (ρ2 : ℝ) (tl2 : List ℝ),
        fitLoop encoderF decoderF backwardF optims criterion
            validation_criteria train_loader val_loader rng ua nq schedule_rate
            E0 ρ2 st2 (some v0) i2
            (ws ++ [(vl.length, ⟨st2.encP, st2.decQ, st2.encS, st2.decT⟩)])
            (vl ++ [v0 :: tail]) tl2 = Except.ok out →
        (∀ x ∈ vl.map (fun l => l.headD 0), v0 < x) →
        (∃ pre, out.valLog = vl ++ pre) ∧
        (∀ e c, (e, c) ∈ out.writes → e < out.valLog.length) ∧
        (∀ e, vl.length ≤ e → e < out.valLog.length →
          ((∃ c, (e, c) ∈ out.writes) ↔
            ∀ e2, e2 < e → val0 out.valLog e < val0 out.valLog e2)) ∧
        (∀ e c, (e, c) ∈ ws → (e, c) ∈ out.writes) ∧
        (∀ e c, (e, c) ∈ out.writes → e < vl.length → (e, c) ∈ ws) := by
      intro out v0 tail st2 i2 ρ2 tl2 hfit2 hallpr
      have hminv2 : some v0
          = histMin ((vl ++ [v0 :: tail]).map (fun l => l.headD 0)) := by
        rw [List.map_append]
        simp only [List.map_cons, List.map_nil, List.headD_cons]
        rw [histMin_append, ← hminv]
        cases hm : minv with
        | none => rfl
        | some m =>
          have hmm : histMin (vl.map (fun l => l.headD 0)) = some m := by
            rw [← hminv, hm]
          have hmem := histMin_mem _ m hmm
          have hlt : v0 < m := hallpr m hmem
          simp only []
          rw [min_eq_right (le_of_lt hlt)]
      have hws2 : ∀ e c,
          (e, c) ∈ ws ++ [(vl.length, ⟨st2.encP, st2.decQ, st2.encS, st2.decT⟩)] →
          e < (vl ++ [v0 :: tail]).length := by
        intro e c hec
        rw [List.mem_append] at hec
        rw [List.length_append]
        rcases hec with hec | hec
        · have := hws e c hec
          simp only [List.length_cons]
          omega
        · rw [List.mem_singleton, Prod.ext_iff] at hec
          obtain ⟨h1, _⟩ := hec
          simp only [h1, List.length_cons, List.length_nil]
          omega
      obtain ⟨⟨pre, hpre⟩, houtws, hiff, hmono, hback⟩ :=
        ih ρ2 st2 (some v0) i2 _ _ tl2 out hfit2 hminv2 hws2
      have hval : out.valLog = vl ++ ((v0 :: tail) :: pre) := by
        rw [hpre, List.append_assoc]
        rfl
      refine ⟨⟨(v0 :: tail) :: pre, hval⟩, houtws, ?_, ?_, ?_⟩
      · intro e he1 he2
        rcases eq_or_lt_of_le he1 with heq | hlt
        · constructor
          · intro _
            intro e2 he2lt
            have hv0e : val0 out.valLog e = v0 := by
              rw [hval, ← heq, val0_append_boundary, List.headD_cons]
            have he2v : val0 out.valLog e2 = val0 vl e2 := by
              rw [hval]
              exact val0_append_lt vl _ e2 (by omega)
            rw [hv0e, he2v]
            exact hallpr _ ((heads_mem_iff vl _).mpr ⟨e2, by omega, rfl⟩)
          · intro _
            exact ⟨⟨st2.encP, st2.decQ, st2.encS, st2.decT⟩,
              hmono _ _ (List.mem_append_right _ (List.mem_singleton.mpr (by
                rw [heq])))⟩
        · exact hiff e (by rw [List.length_append]; simp only [List.length_cons,
            List.length_nil]; omega) he2
      · intro e c hec
        exact hmono e c (List.mem_append_left _ hec)
      · intro e c hec helt
        have hin := hback e c hec (by rw [List.length_append]; omega)
        rw [List.mem_append] at hin
        rcases hin with h | h
        · exact h
        · exfalso
          rw [List.mem_singleton, Prod.ext_iff] at h
          obtain ⟨h1, _⟩ := h
          omega
    have hNOT : ∀ (out : FitOutcome P Q S T) (v0 : ℝ) (tail : List ℝ)
        (st2 : TrainState P Q S T) (i2 : ℕ) (ρ2 : ℝ) (tl2 : List ℝ) (mv : ℝ),
        minv = some mv → ¬ v0 < mv →
        fitLoop encoderF decoderF backwardF optims criterion
            validation_criteria train_loader val_loader rng ua nq schedule_rate
            E0 ρ2 st2 (some mv) i2 ws (vl ++ [v0 :: tail]) tl2 = Except.ok out →
        (∃ pre, out.valLog = vl ++ pre) ∧
        (∀ e c, (e, c) ∈ out.writes → e < out.valLog.length) ∧
        (∀ e, vl.length ≤ e → e < out.valLog.length →
          ((∃ c, (e, c) ∈ out.writes) ↔
            ∀ e2, e2 < e → val0 out.valLog e < val0 out.valLog e2)) ∧
        (∀ e c, (e, c) ∈ ws → (e, c) ∈ out.writes) ∧
        (∀ e c, (e, c) ∈ out.writes → e < vl.length → (e, c) ∈ ws) := by
      intro out v0 tail st2 i2 ρ2 tl2 mv hm hnot hfit2
      have hmm : histMin (vl.map (fun l => l.headD 0)) = some mv := by
        rw [← hminv, hm]
      have hminv2 : some mv
          = histMin ((vl ++ [v0 :: tail]).map (fun l => l.headD 0)) := by
        rw [List.map_append]
        simp only [List.map_cons, List.map_nil, List.headD_cons]
        rw [histMin_append, hmm]
        simp only []
        rw [min_eq_left (not_lt.mp hnot)]
      have hws2 : ∀ e c, (e, c) ∈ ws → e < (vl ++ [v0 :: tail]).length := by
        intro e c hec
        have := hws e c hec
        rw [List.length_append]
        omega
      obtain ⟨⟨pre, hpre⟩, houtws, hiff, hmono, hback⟩ :=
        ih ρ2 st2 (some mv) i2 _ _ tl2 out hfit2 hminv2 hws2
      have hval : out.valLog = vl ++ ((v0 :: tail) :: pre) := by
        rw [hpre, List.append_assoc]
        rfl
      refine ⟨⟨(v0 :: tail) :: pre, hval⟩, houtws, ?_, hmono, ?_⟩
      · intro e he1 he2
        rcases eq_or_lt_of_le he1 with heq | hlt
        · constructor
          · intro ⟨c, hc⟩
            exfalso
            have hin := hback e c hc (by
              rw [List.length_append]
              simp only [List.length_cons, List.length_nil]
              omega)
            have := hws e c hin
            omega
          · intro hall
            exfalso
            obtain ⟨e2, he2lt, he2v⟩ := (heads_mem_iff vl mv).mp
              (histMin_mem _ mv hmm)
            have h1 := hall e2 (by omega)
            have hv0e : val0 out.valLog e = v0 := by
              rw [hval, ← heq, val0_append_boundary, List.headD_cons]
            have h2 : val0 out.valLog e2 = val0 vl e2 := by
              rw [hval]
              exact val0_append_lt vl _ e2 (by omega)
            rw [hv0e, h2, ← he2v] at h1
            exact hnot h1
        · exact hiff e (by rw [List.length_append]; simp only [List.length_cons,
            List.length_nil]; omega) he2
      · intro e c hec helt
        exact hback e c hec (by rw [List.length_append]; omega)
    simp only [fitLoop] at hfit
    cases htb : trainBatches encoderF decoderF backwardF optims criterion rng
        train_loader.length ua nq train_loader stx ix [] with
    | error er =>
      simp only [htb] at hfit
      cases hfit
    | ok p =>
      obtain ⟨losses, st1, i1⟩ := p
      simp only [htb] at hfit
      cases hvc : valCriteria encoderF decoderF backwardF rng ua nq val_loader
          validation_criteria st1 i1 [] with
      | error er =>
        simp only [hvc] at hfit
        cases hfit
      | ok q =>
        obtain ⟨val_loss, st2, i2⟩ := q
        simp only [hvc] at hfit
        split at hfit
        · cases hfit
        · rename_i v0 tail
          cases hm : minv with
          | none =>
            simp only [hm] at hfit
            exact hIMP out v0 tail st2 i2 _ _ hfit (by
              have hvl : vl = [] := by
                cases hvlc : vl with
                | nil => rfl
                | cons a b =>
                  rw [hvlc] at hminv
                  rw [hm] at hminv
                  simp [histMin] at hminv
              intro x hx
              rw [hvl] at hx
              cases hx)
          | some mv =>
            simp only [hm] at hfit
            split at hfit
            · rename_i himp
              exact hIMP out v0 tail st2 i2 _ _ hfit (by
                intro x hx
                have hmm : histMin (vl.map (fun l => l.headD 0)) = some mv := by
                  rw [← hminv, hm]
                exact lt_of_lt_of_le himp (histMin_le _ mv hmm x hx))
            · rename_i hnot
              exact hNOT out v0 tail st2 i2 _ _ mv hm hnot hfit

/-- C5: in every completed fit run, a checkpoint (the four state dicts of
lines 185-190) is written at the end of epoch e — an entry (e, snapshot)
in the write log — exactly when the epoch-e mean of validation criterion 0
is strictly lower than that mean of every earlier epoch; the best-seen
value starts at math.inf, each write overwrites the single checkpoint
path (the log records them in order), and non-improving epochs write
nothing. -/
theorem checkpoint_iff_strict_improvement
    (optims : OptPair P Q S T)
    (validation_criteria : List (List ℝ → List ℝ → ℝ))
    (train_loader val_loader : List (Seq3 × Seq3))
    (epochs : ℕ) (schedule_rate : ℝ) (out : FitOutcome P Q S T)
    (hfit : fit encoderF decoderF backwardF optims epochs train_loader
        val_loader criterion validation_criteria rng st i tfRatio ua nq
        schedule_rate = Except.ok out) :
    ∀ e, e < out.valLog.length →
      ((∃ c, (e, c) ∈ out.writes) ↔
        ∀ e2, e2 < e → val0 out.valLog e < val0 out.valLog e2) := by
  unfold fit at hfit
  obtain ⟨_, _, hiff, _, _⟩ :=
    fitLoop_main encoderF decoderF backwardF criterion rng ua nq optims
      validation_criteria train_loader val_loader schedule_rate
      epochs tfRatio st none i [] [] [] out hfit rfl
      (fun e c h => absurd h (List.not_mem_nil _))
  intro e he
  exact hiff e (Nat.zero_le e) he

/-- Witness for C5: a one-epoch run on ten trivial training batches; the
first epoch vacuously beats every earlier epoch, so it writes a
checkpoint. -/
theorem checkpoint_iff_strict_improvement_witness :
    ∃ out : FitOutcome Unit Unit Unit Unit,
      fit (fun (_ : Unit) (_ : Seq3) => ((), ()))
          (fun (_ : Unit) (_ : Slice) (_ : Unit) (_ : Option Unit) =>
            ([([1] : Vec)], ()))
          (fun _ p q => (p, q))
          ⟨fun p s => (p, s), id, fun q t => (q, t), id⟩ 1
          (List.replicate 10 ([[]], [[[0]]])) [([[]], [[[0]]])]
          (fun _ _ => 0) [fun _ _ => 0] (fun _ => 1/2)
          ⟨(), (), (), ()⟩ 0 0 false false 1
        = Except.ok out ∧
      0 < out.valLog.length ∧
      ((∃ c, (0, c) ∈ out.writes) ↔
        ∀ e2, e2 < 0 → val0 out.valLog 0 < val0 out.valLog e2) := by
  refine ⟨_, rfl, by decide, ?_⟩
  exact checkpoint_iff_strict_improvement
      (fun (_ : Unit) (_ : Seq3) => ((), ()))
      (fun (_ : Unit) (_ : Slice) (_ : Unit) (_ : Option Unit) =>
        ([([1] : Vec)], ()))
      (fun _ p q => (p, q)) ⟨(), (), (), ()⟩ (fun _ _ => 0) (fun _ => 1/2)
      0 0 false false
      ⟨fun p s => (p, s), id, fun q t => (q, t), id⟩ [fun _ _ => 0]
      (List.replicate 10 ([[]], [[[0]]])) [([[]], [[[0]]])] 1 1 _ rfl
      0 (by decide)

/-- The default eps of F.normalize is positive. -/
lemma normEps_pos : 0 < normEps := by
  unfold normEps
  norm_num

/-- The default eps of F.normalize is at most one. -/
lemma normEps_le_one : normEps ≤ 1 := by
  unfold normEps
  norm_num

/-- A sum of squares is nonnegative. -/
lemma sum_sq_nonneg (l : List ℝ) : 0 ≤ (l.map (fun x => x ^ 2)).sum :=
  List.sum_nonneg (by
    intro y hy
    rw [List.mem_map] at hy
    obtain ⟨x, _, rfl⟩ := hy
    exact sq_nonneg x)

/-- A vanishing sum of squares forces every entry to vanish. -/
lemma sum_sq_eq_zero : ∀ (l : List ℝ),
    (l.map (fun x => x ^ 2)).sum = 0 → ∀ x ∈ l, x = 0 := by
  intro l
  induction l with
  | nil =>
    intro _ x hx
    cases hx
  | cons a l ih =>
    intro h x hx
    rw [List.map_cons, List.sum_cons] at h
    have ha : 0 ≤ a ^ 2 := sq_nonneg a
    have hs : 0 ≤ (l.map (fun x => x ^ 2)).sum := sum_sq_nonneg l
    have ha0 : a ^ 2 = 0 := by linarith
    have hs0 : (l.map (fun x => x ^ 2)).sum = 0 := by linarith
    rcases List.mem_cons.mp hx with h1 | h1
    · rw [h1]
      exact sq_eq_zero_iff.mp ha0
    · exact ih hs0 x h1

/-- A chunk of zero L2 norm is identically zero. -/
lemma l2norm_zero_all (c : List ℝ) (h : l2norm c = 0) : ∀ x ∈ c, x = 0 := by
  refine sum_sq_eq_zero c ?_
  unfold l2norm at h
  have hnn := sum_sq_nonneg c
  have hle := Real.sqrt_eq_zero'.mp h
  linarith

/-- F.normalize fixes a chunk of zero norm (every entry is zero and 0/eps
is 0). -/
lemma normalizeChunk_of_zero_norm (c : List ℝ) (h : l2norm c = 0) :
    normalizeChunk c = c :=
  normalizeChunk_zero c (l2norm_zero_all c h)

/-- Scaling a chunk by 1/n scales its L2 norm by 1/n. -/
lemma l2norm_map_div (c : List ℝ) (n : ℝ) (hn : 0 < n) :
    l2norm (c.map (fun x => x / n)) = l2norm c / n := by
  unfold l2norm
  rw [List.map_map]
  have he : ((fun x => x ^ 2) ∘ fun x => x / n) = fun x => x ^ 2 / n ^ 2 := by
    funext x
    simp [div_pow]
  rw [he]
  have h2 : c.map (fun x => x ^ 2 / n ^ 2)
      = (c.map (fun x => x ^ 2)).map (fun y => y / n ^ 2) := by
    rw [List.map_map]
    rfl
  rw [h2, sum_map_div, Real.sqrt_div (sum_sq_nonneg c), Real.sqrt_sq hn.le]

/-- A chunk whose norm clears the eps clamp is truly normalized: the
result has unit L2 norm. -/
lemma normalizeChunk_big (c : List ℝ) (h : normEps ≤ l2norm c) :
    l2norm (normalizeChunk c) = 1 := by
  have hpos : 0 < l2norm c := lt_of_lt_of_le normEps_pos h
  unfold normalizeChunk
  rw [max_eq_left h, l2norm_map_div c (l2norm c) hpos,
    div_self (ne_of_gt hpos)]

/-- F.normalize fixes a chunk that already has unit norm. -/
lemma normalizeChunk_norm_one (c : List ℝ) (h : l2norm c = 1) :
    normalizeChunk c = c := by
  unfold normalizeChunk
  rw [h, max_eq_left normEps_le_one]
  simp

/-- Per-chunk idempotence, away from the tiny-norm regime. -/
lemma normalizeChunk_idem (c : List ℝ)
    (h : l2norm c = 0 ∨ normEps ≤ l2norm c) :
    normalizeChunk (normalizeChunk c) = normalizeChunk c := by
  rcases h with hz | hb
  · rw [normalizeChunk_of_zero_norm c hz]
    exact normalizeChunk_of_zero_norm c hz
  · exact normalizeChunk_norm_one _ (normalizeChunk_big c hb)

/-- When the flat length is a multiple of four, view(-1, 4) produces only
chunks of length four. -/
lemma toChunks4_length_four :
    ∀ (n : ℕ) (xs : List ℝ), xs.length ≤ n → 4 ∣ xs.length →
      ∀ c ∈ toChunks4 xs, c.length = 4 := by
  intro n
  induction n with
  | zero =>
    intro xs h _ c hc
    rw [List.length_eq_zero.mp (Nat.le_zero.mp h)] at hc
    simp [toChunks4] at hc
  | succ n ih =>
    intro xs h hdvd c hc
    cases xs with
    | nil => simp [toChunks4] at hc
    | cons x t =>
      have ht : 3 ≤ t.length := by
        rcases hdvd with ⟨k, hk⟩
        simp only [List.length_cons] at hk
        omega
      rw [toChunks4] at hc
      rcases List.mem_cons.mp hc with h1 | h1
      · rw [h1]
        simp only [List.length_cons, List.length_take]
        omega
      · refine ih (t.drop 3) ?_ ?_ c h1
        · simp only [List.length_drop]
          simp only [List.length_cons] at h
          omega
        · rcases hdvd with ⟨k, hk⟩
          simp only [List.length_cons] at hk
          refine ⟨k - 1, ?_⟩
          simp only [List.length_drop]
          omega

/-- view(-1, 4) undoes the flattening of a list of length-4 chunks. -/
lemma toChunks4_flatten_of_four :
    ∀ (cs : List (List ℝ)), (∀ c ∈ cs, c.length = 4) →
      toChunks4 cs.flatten = cs := by
  intro cs
  induction cs with
  | nil =>
    intro _
    simp [toChunks4]
  | cons c cs ih =>
    intro h
    have hc : c.length = 4 := h c (List.mem_cons_self c cs)
    cases c with
    | nil => simp at hc
    | cons x t =>
      have ht : t.length = 3 := by
        simp only [List.length_cons] at hc
        omega
      rw [List.flatten_cons, List.cons_append, toChunks4,
        show (3 : ℕ) = t.length from ht.symm, List.take_left, List.drop_left,
        ih (fun d hd => h d (List.mem_cons_of_mem _ hd))]

/-- Flattening after unflattening is the identity when the lengths agree. -/
lemma flatten2_unflattenLike :
    ∀ (s : Slice) (xs : List ℝ), xs.length = (flatten2 s).length →
      flatten2 (unflattenLike s xs) = xs := by
  intro s
  induction s with
  | nil =>
    intro xs h
    have hx : xs = [] := List.length_eq_zero.mp (by rw [h]; rfl)
    rw [hx]
    rfl
  | cons r rs ih =>
    intro xs h
    show xs.take r.length ++ flatten2 (unflattenLike rs (xs.drop r.length))
      = xs
    rw [ih (xs.drop r.length) (by
      simp only [List.length_drop]
      have hlen : (flatten2 (r :: rs)).length
          = r.length + (flatten2 rs).length := by
        show ((r :: rs).flatten).length = _
        rw [List.flatten_cons, List.length_append]
        rfl
      rw [h, hlen]
      omega)]
    exact List.take_append_drop r.length xs

/-- unflattenLike only reads the shape of its template. -/
lemma unflattenLike_congr :
    ∀ (t s : Slice), sliceShape t = sliceShape s →
      ∀ xs, unflattenLike t xs = unflattenLike s xs := by
  intro t
  induction t with
  | nil =>
    intro s h xs
    cases s with
    | nil => rfl
    | cons a b => simp [sliceShape] at h
  | cons r rs ih =>
    intro s h xs
    cases s with
    | nil => simp [sliceShape] at h
    | cons a b =>
      simp only [sliceShape, List.map_cons, List.cons.injEq] at h
      obtain ⟨h1, h2⟩ := h
      show xs.take r.length :: unflattenLike rs (xs.drop r.length)
        = xs.take a.length :: unflattenLike b (xs.drop a.length)
      rw [h1, ih b h2]

/-- Regrouping the renormalized flat output by four recovers exactly the
renormalized chunks. -/
lemma chunks_of_normalizeQuat (xs : List ℝ) (hlen : 4 ∣ xs.length) :
    toChunks4 (normalizeQuat xs) = (toChunks4 xs).map normalizeChunk := by
  unfold normalizeQuat
  refine toChunks4_flatten_of_four _ ?_
  intro c hcm
  rw [List.mem_map] at hcm
  obtain ⟨c0, hc0, rfl⟩ := hcm
  rw [normalizeChunk_length]
  exact toChunks4_length_four xs.length xs le_rfl hlen c0 hc0

/-- Flat-level idempotence of the quaternion renormalization, away from
chunks of tiny nonzero norm. -/
lemma normalizeQuat_idem (xs : List ℝ) (hlen : 4 ∣ xs.length)
    (hc : ∀ c ∈ toChunks4 xs, l2norm c = 0 ∨ normEps ≤ l2norm c) :
    normalizeQuat (normalizeQuat xs) = normalizeQuat xs := by
  conv_lhs => rw [normalizeQuat]
  rw [chunks_of_normalizeQuat xs hlen, List.map_map]
  unfold normalizeQuat
  congr 1
  refine List.map_congr_left ?_
  intro c hcm
  exact normalizeChunk_idem c (hc c hcm)

/-- After one renormalization every chunk has norm zero or one. -/
lemma normalizeQuat_chunk_norms (xs : List ℝ) (hlen : 4 ∣ xs.length)
    (hc : ∀ c ∈ toChunks4 xs, l2norm c = 0 ∨ normEps ≤ l2norm c) :
    ∀ c ∈ toChunks4 (normalizeQuat xs), l2norm c = 0 ∨ l2norm c = 1 := by
  rw [chunks_of_normalizeQuat xs hlen]
  intro c hcm
  rw [List.mem_map] at hcm
  obtain ⟨c0, hc0, rfl⟩ := hcm
  rcases hc c0 hc0 with hz | hb
  · left
    rw [normalizeChunk_of_zero_norm c0 hz, hz]
  · right
    exact normalizeChunk_big c0 hb

/-- L2 norm of a quaternion with a single nonnegative component. -/
lemma l2norm_single4 (a : ℝ) (ha : 0 ≤ a) : l2norm [a, 0, 0, 0] = a := by
  unfold l2norm
  have h : (([a, 0, 0, 0] : List ℝ).map (fun x => x ^ 2)).sum = a ^ 2 := by
    norm_num
  rw [h, Real.sqrt_sq ha]

/-- The normalization of lines 92-96 on a one-row slice holding a single
quaternion with one nonnegative component: divide by the clamped norm. -/
lemma normSlice_single4 (a : ℝ) (ha : 0 ≤ a) :
    normSlice [[a, 0, 0, 0]] = [[a / max a normEps, 0, 0, 0]] := by
  unfold normSlice normalizeQuat
  have hfl : flatten2 [[a, 0, 0, 0]] = [a, 0, 0, 0] := by
    simp [flatten2]
  rw [hfl]
  have hch : toChunks4 [a, 0, 0, 0] = [[a, 0, 0, 0]] := by
    simp [toChunks4]
  rw [hch, List.map_cons, List.map_nil]
  have hnc : normalizeChunk [a, 0, 0, 0] = [a / max a normEps, 0, 0, 0] := by
    unfold normalizeChunk
    rw [l2norm_single4 a ha]
    norm_num
  rw [hnc]
  simp [unflattenLike]

/-- C8 counterexample: a quaternion of tiny nonzero norm (eps/2, with eps
the 1e-12 default of F.normalize) is rescaled by the eps clamp rather than
normalized — the first application yields [1/2, 0, 0, 0], whose norm is
1/2 rather than 1, and the second application changes it again to
[1, 0, 0, 0] — so the per-4-channel normalization of lines 92-96 is not
idempotent and need not produce unit-norm quaternions. -/
theorem quat_normalization_not_idempotent_cex :
    normSlice [[normEps / 2, 0, 0, 0]] = [[1 / 2, 0, 0, 0]] ∧
    normSlice (normSlice [[normEps / 2, 0, 0, 0]]) = [[1, 0, 0, 0]] ∧
    normSlice (normSlice [[normEps / 2, 0, 0, 0]])
      ≠ normSlice [[normEps / 2, 0, 0, 0]] ∧
    l2norm [1 / 2, 0, 0, 0] ≠ 1 := by
  have hpos := normEps_pos
  have hne : normEps ≠ 0 := ne_of_gt hpos
  have h1 : normSlice [[normEps / 2, 0, 0, 0]] = [[1 / 2, 0, 0, 0]] := by
    rw [normSlice_single4 (normEps / 2) (by linarith)]
    have hmax : max (normEps / 2) normEps = normEps :=
      max_eq_right (by linarith)
    rw [hmax, div_div, mul_comm, ← div_div, div_self hne]
  have h2 : normSlice [[(1 : ℝ) / 2, 0, 0, 0]] = [[1, 0, 0, 0]] := by
    rw [normSlice_single4 (1 / 2 : ℝ) (by norm_num)]
    have hmax2 : max (1 / 2 : ℝ) normEps = 1 / 2 := by
      refine max_eq_left ?_
      unfold normEps
      norm_num
    rw [hmax2]
    norm_num
  refine ⟨h1, by rw [h1, h2], ?_, ?_⟩
  · rw [h1, h2]
    intro hcon
    injection hcon with hv _
    injection hv with hx _
    norm_num at hx
  · rw [l2norm_single4 (1 / 2 : ℝ) (by norm_num)]
    norm_num

/-- C8 (amended): when the flattened step output splits into 4-chunks each
of L2 norm zero or at least the 1e-12 eps of F.normalize — in particular
whenever every quaternion has norm at least eps — the per-4-channel
normalization of lines 92-96 is idempotent, and after the first
application every chunk has norm one (all-zero chunks stay zero).  The eps
clamp breaks both properties for chunks of tiny nonzero norm. -/
theorem quat_normalization_idempotent_amended
    (s : Slice) (hlen : 4 ∣ (flatten2 s).length)
    (hc : ∀ c ∈ toChunks4 (flatten2 s), l2norm c = 0 ∨ normEps ≤ l2norm c) :
    normSlice (normSlice s) = normSlice s ∧
    ∀ c ∈ toChunks4 (flatten2 (normSlice s)), l2norm c = 0 ∨ l2norm c = 1 := by
  have hflat : flatten2 (normSlice s) = normalizeQuat (flatten2 s) := by
    unfold normSlice
    exact flatten2_unflattenLike s _ (by rw [normalizeQuat_length])
  constructor
  · have key : normSlice (normSlice s)
        = unflattenLike (normSlice s) (normalizeQuat (flatten2 (normSlice s))) :=
      rfl
    rw [key, hflat, normalizeQuat_idem (flatten2 s) hlen hc,
      unflattenLike_congr (normSlice s) s (normSlice_shape s)]
    rfl
  · rw [hflat]
    exact normalizeQuat_chunk_norms (flatten2 s) hlen hc

/-- Witness for C8 (amended) at the quaternion [3, 4, 0, 0] of norm 5. -/
theorem quat_normalization_idempotent_amended_witness :
    (4 ∣ (flatten2 [[(3 : ℝ), 4, 0, 0]]).length) ∧
    (∀ c ∈ toChunks4 (flatten2 [[(3 : ℝ), 4, 0, 0]]),
      l2norm c = 0 ∨ normEps ≤ l2norm c) ∧
    (normSlice (normSlice [[(3 : ℝ), 4, 0, 0]])
        = normSlice [[(3 : ℝ), 4, 0, 0]] ∧
      ∀ c ∈ toChunks4 (flatten2 (normSlice [[(3 : ℝ), 4, 0, 0]])),
        l2norm c = 0 ∨ l2norm c = 1) := by
  have hl : 4 ∣ (flatten2 [[(3 : ℝ), 4, 0, 0]]).length := by
    simp [flatten2]
  have hch : toChunks4 (flatten2 [[(3 : ℝ), 4, 0, 0]]) = [[3, 4, 0, 0]] := by
    simp [flatten2, toChunks4]
  have hn : l2norm [(3 : ℝ), 4, 0, 0] = 5 := by
    unfold l2norm
    have hs : (([(3 : ℝ), 4, 0, 0]).map (fun x => x ^ 2)).sum = 25 := by
      norm_num
    rw [hs, show (25 : ℝ) = 5 ^ 2 by norm_num, Real.sqrt_sq (by norm_num)]
  have hcs : ∀ c ∈ toChunks4 (flatten2 [[(3 : ℝ), 4, 0, 0]]),
      l2norm c = 0 ∨ normEps ≤ l2norm c := by
    rw [hch]
    intro c hcm
    rw [List.mem_singleton] at hcm
    subst hcm
    right
    rw [hn]
    unfold normEps
    norm_num
  exact ⟨hl, hcs,
    quat_normalization_idempotent_amended [[(3 : ℝ), 4, 0, 0]] hl hcs⟩

end Theorems

end VTNMP
